import Mathlib

/-!
Verification development for the eternal-timer repository.

The on-disk file is modelled as a `List Char`; every string operation used by
the source (split on newline, JavaScript `split(/\s+/)`, `split(" ")`, `trim`,
`Number(...)`, `JSON.parse` / `JSON.stringify`) is re-implemented here over
`List Char` so that the behaviour of the managers can be stated and proved.

Modelling notes, stated once:
* JavaScript numbers are modelled as integers; `NaN` is modelled as `none` in
  `Option Int`.  All timestamps written by the program are integers.
* The JSON grammar is modelled with integer numerals and without interior
  whitespace (the program only ever writes compact JSON, and `JSON.parse` is
  applied to trimmed lines); leading and trailing whitespace of a whole line is
  accepted, as `JSON.parse` does.
* `Date.now()` and `uuidv4()` are nondeterministic inputs of the program and
  are passed to the modelled operations as parameters.
-/

namespace EternalTimer

abbrev Str := List Char

/-- Whitespace as used by JavaScript `trim` and `\s` for the characters that
occur in this development. -/
def isWs (c : Char) : Bool :=
  c == ' ' || c == '\t' || c == '\n' || c == '\r'

/-- Model of JavaScript `String.prototype.trim`. -/
def trimS (l : Str) : Str :=
  ((l.dropWhile isWs).reverse.dropWhile isWs).reverse

/-- Split a character list at every occurrence of `sep`; mirrors JavaScript
`String.prototype.split` with a single-character separator. -/
def splitOnChar (sep : Char) : Str → List Str
  | [] => [[]]
  | c :: rest =>
    match splitOnChar sep rest with
    | [] => [[c]]
    | l :: ls => if c = sep then [] :: l :: ls else (c :: l) :: ls

/-- Split on newline characters, as `split('\n')` does. -/
def splitNl : Str → List Str := splitOnChar '\n'

/-- Split on single spaces, as `split(" ")` does. -/
def splitSpace : Str → List Str := splitOnChar ' '

/-- Drop one trailing carriage return, the per-piece effect of splitting with
the regular expression matching an optional CR before an LF. -/
def stripCr (l : Str) : Str :=
  if l.getLast? = some '\r' then l.dropLast else l

/-- Model of `split(/\r?\n/)`. -/
def splitCRLF (s : Str) : List Str :=
  (splitNl s).map stripCr

theorem dropWhile_length_le (p : Char → Bool) (l : Str) :
    (l.dropWhile p).length ≤ l.length := by
  induction l with
  | nil => simp [List.dropWhile]
  | cons c r ih =>
    simp only [List.dropWhile]
    split
    · exact Nat.le_succ_of_le ih
    · exact Nat.le_refl _

/-- Helper for `splitWs`: `acc` holds the token being read (in reverse), and
the flag records whether we are inside a run of whitespace (a token has just
been emitted and further whitespace is absorbed into the same separator). -/
def splitWsA : Str → Str → Bool → List Str
  | [], acc, inWs => if inWs then [[]] else [acc.reverse]
  | c :: rest, acc, inWs =>
    if inWs then
      if isWs c then splitWsA rest [] true
      else splitWsA rest [c] false
    else
      if isWs c then acc.reverse :: splitWsA rest [] true
      else splitWsA rest (c :: acc) false

/-- Model of JavaScript `split(/\s+/)`: a maximal run of whitespace separates
tokens, with an empty leading (resp. trailing) token if the string starts
(resp. ends) with whitespace. -/
def splitWs (l : Str) : List Str := splitWsA l [] false

/-- Concatenate lines, terminating each with a newline; this is the shape of
the accumulation `newTimersData += line + "\n"` used by the managers. -/
def joinLines (ls : List Str) : Str :=
  ls.foldr (fun l acc => l ++ '\n' :: acc) []

/-- Concatenate lines separated (not terminated) by newlines; this is
`lines.join("\n")` as used by the latest plain-text `removeTimer`. -/
def joinSep : List Str → Str
  | [] => []
  | [l] => l
  | l :: ls => l ++ '\n' :: joinSep ls

/-! ### Decimal numerals -/

def isDigit (c : Char) : Bool := 48 ≤ c.toNat && c.toNat ≤ 57

def digitVal (c : Char) : Option Nat :=
  if isDigit c then some (c.toNat - 48) else none

def digitChar (d : Nat) : Char := Char.ofNat ('0'.toNat + d)

/-- Render a natural number in decimal, most significant digit first. -/
def natToStrAux (n : Nat) (acc : Str) : Str :=
  if h : n < 10 then digitChar n :: acc
  else natToStrAux (n / 10) (digitChar (n % 10) :: acc)
  termination_by n
  decreasing_by exact Nat.div_lt_self (by omega) (by omega)

def natToStr (n : Nat) : Str := natToStrAux n []

/-- Model of JavaScript `Number.prototype.toString` on integers. -/
def intToStr (i : Int) : Str :=
  if i < 0 then '-' :: natToStr i.natAbs else natToStr i.toNat

/-- Read a run of decimal digits, failing on any other character. -/
def parseDigitsAux : Str → Nat → Option Nat
  | [], acc => some acc
  | c :: r, acc =>
    match digitVal c with
    | some d => parseDigitsAux r (acc * 10 + d)
    | none => none

/-- Helper for `jsNumberStr`: convert a nonempty trimmed string. -/
def jsNumAux (c : Char) (ds : Str) : Option Int :=
  if c = '-' then
    if ds = [] then none else (parseDigitsAux ds 0).map (fun n : Nat => -(n : Int))
  else if c = '+' then
    if ds = [] then none else (parseDigitsAux ds 0).map (fun n : Nat => (n : Int))
  else (parseDigitsAux (c :: ds) 0).map (fun n : Nat => (n : Int))

/-- Model of JavaScript `Number(string)`, restricted to optionally signed
decimal integers: the empty or all-whitespace string converts to `0`, and a
string that is not an integer numeral converts to `NaN` (`none`). -/
def jsNumberStr (s : Str) : Option Int :=
  match trimS s with
  | [] => some 0
  | c :: ds => jsNumAux c ds

/-! ### JSON values

`JVal` models the values produced by `JSON.parse`.  Numbers are integers
(see the header note).  Objects carry their properties in insertion order with
distinct keys, as JavaScript objects do. -/

inductive JVal where
  | jnull : JVal
  | jbool : Bool → JVal
  | jnum : Int → JVal
  | jstr : Str → JVal
  | jarr : List JVal → JVal
  | jobj : List (Str × JVal) → JVal

/-- The opening-brace character, written numerically. -/
def lbrace : Char := Char.ofNat 123

/-- The closing-brace character, written numerically. -/
def rbrace : Char := Char.ofNat 125

/-- JavaScript property assignment on an association list: an existing key is
updated in place (keeping its position), a new key is appended. -/
def setAssoc {α : Type} : List (Str × α) → Str → α → List (Str × α)
  | [], k, v => [(k, v)]
  | (k', v') :: r, k, v =>
    if k' = k then (k, v) :: r else (k', v') :: setAssoc r k v

/-- First-match lookup; on lists built with `setAssoc` keys are unique, so this
is JavaScript property access. -/
def lookupAssoc {α : Type} : List (Str × α) → Str → Option α
  | [], _ => none
  | (k', v') :: r, k => if k' = k then some v' else lookupAssoc r k

/-- Keys are pairwise distinct. -/
def nodupKeys {α : Type} : List (Str × α) → Bool
  | [] => true
  | (k, _) :: r => r.all (fun f => f.1 ≠ k) && nodupKeys r

/-! ### JSON serialization (`JSON.stringify`) -/

def hexDig (n : Nat) : Char :=
  if n < 10 then Char.ofNat (48 + n) else Char.ofNat (87 + n)

/-- Escape one character of a JSON string, as `JSON.stringify` does. -/
def escChar (c : Char) : Str :=
  if c = '"' then ['\\', '"']
  else if c = '\\' then ['\\', '\\']
  else if c = '\n' then ['\\', 'n']
  else if c = '\r' then ['\\', 'r']
  else if c = '\t' then ['\\', 't']
  else if c = Char.ofNat 8 then ['\\', 'b']
  else if c = Char.ofNat 12 then ['\\', 'f']
  else if c.toNat < 32 then ['\\', 'u', '0', '0', hexDig (c.toNat / 16), hexDig (c.toNat % 16)]
  else [c]

def escStr (s : Str) : Str := s.foldr (fun c acc => escChar c ++ acc) []

def quoteStr (s : Str) : Str := '"' :: escStr s ++ ['"']

mutual

/-- Model of `JSON.stringify` (compact form, as the program always uses). -/
def strJVal : JVal → Str
  | .jnull => ['n', 'u', 'l', 'l']
  | .jbool true => ['t', 'r', 'u', 'e']
  | .jbool false => ['f', 'a', 'l', 's', 'e']
  | .jnum n => intToStr n
  | .jstr s => quoteStr s
  | .jarr xs => '[' :: strJItems xs ++ [']']
  | .jobj fs => lbrace :: strJFields fs ++ [rbrace]

def strJItems : List JVal → Str
  | [] => []
  | [v] => strJVal v
  | v :: rest => strJVal v ++ ',' :: strJItems rest

def strJFields : List (Str × JVal) → Str
  | [] => []
  | [(k, v)] => quoteStr k ++ ':' :: strJVal v
  | (k, v) :: rest => quoteStr k ++ ':' :: strJVal v ++ ',' :: strJFields rest

end

/-! ### JSON parsing (`JSON.parse`) -/

def hexVal (c : Char) : Option Nat :=
  if 48 ≤ c.toNat && c.toNat ≤ 57 then some (c.toNat - 48)
  else if 97 ≤ c.toNat && c.toNat ≤ 102 then some (c.toNat - 87)
  else if 65 ≤ c.toNat && c.toNat ≤ 70 then some (c.toNat - 55)
  else none

/-- Decode a single-character escape (everything except `\uXXXX`). -/
def escSimple (e : Char) : Option Char :=
  if e = '"' then some '"'
  else if e = '\\' then some '\\'
  else if e = '/' then some '/'
  else if e = 'n' then some '\n'
  else if e = 'r' then some '\r'
  else if e = 't' then some '\t'
  else if e = 'b' then some (Char.ofNat 8)
  else if e = 'f' then some (Char.ofNat 12)
  else none

/-- Parse the body of a JSON string after the opening quote, returning the
decoded contents and the input after the closing quote. -/
def pStrBody : Str → Option (Str × Str)
  | [] => none
  | c :: r =>
    if c = '"' then some ([], r)
    else if c = '\\' then
      match r with
      | [] => none
      | e :: r1 =>
        if e = 'u' then
          match r1 with
          | h1 :: h2 :: h3 :: h4 :: r2 =>
            match hexVal h1, hexVal h2, hexVal h3, hexVal h4 with
            | some a, some b, some g, some d =>
              (pStrBody r2).map
                (fun p => (Char.ofNat (((a * 16 + b) * 16 + g) * 16 + d) :: p.1, p.2))
            | _, _, _, _ => none
          | _ => none
        else
          match escSimple e with
          | some d => (pStrBody r1).map (fun p => (d :: p.1, p.2))
          | none => none
    else (pStrBody r).map (fun p => (c :: p.1, p.2))
  termination_by l => l.length
  decreasing_by all_goals (simp [List.length]; try omega)

/-- Read a run of decimal digits with its value, returning the rest. -/
def takeDigits : Str → Nat → Nat × Str
  | [], acc => (acc, [])
  | c :: r, acc =>
    match digitVal c with
    | some d => takeDigits r (acc * 10 + d)
    | none => (acc, c :: r)

/-- Parse an unsigned JSON integer numeral (no leading zeros). -/
def pNumNat : Str → Option (Nat × Str)
  | [] => none
  | c :: r =>
    if c = '0' then
      match r with
      | c2 :: _ => if isDigit c2 then none else some (0, r)
      | [] => some (0, [])
    else
      match digitVal c with
      | some d => some (takeDigits r d)
      | none => none

/-- Parse a JSON integer numeral with optional minus sign. -/
def pNum : Str → Option (JVal × Str)
  | [] => none
  | c :: r =>
    if c = '-' then (pNumNat r).map (fun p => (.jnum (-(p.1 : Int)), p.2))
    else (pNumNat (c :: r)).map (fun p => (.jnum (p.1 : Int), p.2))

mutual

/-- Fueled JSON value parser.  Fuel bounds the nesting/step count; the
top-level entry point supplies enough fuel for any input it is given. -/
def pVal : Nat → Str → Option (JVal × Str)
  | 0, _ => none
  | _ + 1, [] => none
  | fuel + 1, c :: rest =>
    if c = lbrace then
      match rest with
      | [] => none
      | c2 :: r2 => if c2 = rbrace then some (.jobj [], r2) else pFields fuel [] rest
    else if c = '[' then
      match rest with
      | [] => none
      | c2 :: r2 => if c2 = ']' then some (.jarr [], r2) else pItems fuel [] rest
    else if c = '"' then
      (pStrBody rest).map (fun p => (.jstr p.1, p.2))
    else if c = 't' then
      match rest with
      | 'r' :: 'u' :: 'e' :: r => some (.jbool true, r)
      | _ => none
    else if c = 'f' then
      match rest with
      | 'a' :: 'l' :: 's' :: 'e' :: r => some (.jbool false, r)
      | _ => none
    else if c = 'n' then
      match rest with
      | 'u' :: 'l' :: 'l' :: r => some (.jnull, r)
      | _ => none
    else
      pNum (c :: rest)

/-- Parse the members of a JSON object (after the opening brace, at least one
member present), accumulating with JavaScript assignment semantics. -/
def pFields : Nat → List (Str × JVal) → Str → Option (JVal × Str)
  | 0, _, _ => none
  | fuel + 1, acc, input =>
    match input with
    | [] => none
    | c0 :: r =>
      if c0 = '"' then
        match pStrBody r with
        | some (key, r1) =>
          match r1 with
          | [] => none
          | c1 :: r2 =>
            if c1 = ':' then
              match pVal fuel r2 with
              | some (v, r3) =>
                match r3 with
                | [] => none
                | c2 :: r4 =>
                  if c2 = ',' then pFields fuel (setAssoc acc key v) r4
                  else if c2 = rbrace then some (.jobj (setAssoc acc key v), r4)
                  else none
              | none => none
            else none
        | none => none
      else none

/-- Parse the elements of a JSON array (after the opening bracket, at least
one element present). -/
def pItems : Nat → List JVal → Str → Option (JVal × Str)
  | 0, _, _ => none
  | fuel + 1, acc, input =>
    match pVal fuel input with
    | some (v, r) =>
      match r with
      | [] => none
      | c :: r2 =>
        if c = ',' then pItems fuel (acc ++ [v]) r2
        else if c = ']' then some (.jarr (acc ++ [v]), r2)
        else none
    | none => none

end

/-- Model of `JSON.parse` applied to one line: outer whitespace is ignored,
and the whole (trimmed) input must be consumed by one JSON value. -/
def parseJson (line : Str) : Option JVal :=
  match pVal ((trimS line).length + 1) (trimS line) with
  | some (v, []) => some v
  | _ => none

/-! ### Lemmas about numerals -/

theorem digitVal_digitChar {d : Nat} (h : d < 10) : digitVal (digitChar d) = some d := by
  interval_cases d <;> decide

theorem isDigit_digitChar {d : Nat} (h : d < 10) : isDigit (digitChar d) = true := by
  interval_cases d <;> decide

theorem natToStrAux_acc (n : Nat) (acc : Str) : natToStrAux n acc = natToStr n ++ acc := by
  induction n using Nat.strong_induction_on generalizing acc with
  | _ n ih =>
    by_cases h : n < 10
    · rw [show natToStrAux n acc = digitChar n :: acc by rw [natToStrAux]; simp [h],
        show natToStr n = [digitChar n] by rw [natToStr, natToStrAux]; simp [h]]
      rfl
    · rw [show natToStrAux n acc = natToStrAux (n / 10) (digitChar (n % 10) :: acc) by
          rw [natToStrAux]; simp [h],
        show natToStr n = natToStrAux (n / 10) [digitChar (n % 10)] by
          rw [natToStr, natToStrAux]; simp [h]]
      rw [ih (n / 10) (Nat.div_lt_self (by omega) (by omega)),
        ih (n / 10) (Nat.div_lt_self (by omega) (by omega))]
      simp

theorem natToStr_small {n : Nat} (h : n < 10) : natToStr n = [digitChar n] := by
  rw [natToStr, natToStrAux]
  simp [h]

theorem natToStr_large {n : Nat} (h : ¬n < 10) :
    natToStr n = natToStr (n / 10) ++ [digitChar (n % 10)] := by
  rw [natToStr, natToStrAux]
  simp only [h, dite_false]
  rw [natToStrAux_acc]

theorem natToStr_ne_nil (n : Nat) : natToStr n ≠ [] := by
  by_cases h : n < 10
  · simp [natToStr_small h]
  · simp [natToStr_large h]

theorem natToStr_digits (n : Nat) : ∀ c ∈ natToStr n, isDigit c = true := by
  induction n using Nat.strong_induction_on with
  | _ n ih =>
    by_cases h : n < 10
    · rw [natToStr_small h]
      intro c hc
      rw [List.mem_singleton] at hc
      subst hc
      exact isDigit_digitChar h
    · rw [natToStr_large h]
      intro c hc
      rcases List.mem_append.1 hc with h1 | h1
      · exact ih (n / 10) (Nat.div_lt_self (by omega) (by omega)) c h1
      · rw [List.mem_singleton] at h1
        subst h1
        exact isDigit_digitChar (Nat.mod_lt _ (by omega))

theorem natToStr_head_ne_zero {n : Nat} (hn : n ≠ 0) :
    ∀ c, (natToStr n).head? = some c → c ≠ '0' := by
  induction n using Nat.strong_induction_on with
  | _ n ih =>
    by_cases h : n < 10
    · rw [natToStr_small h]
      intro c hc
      simp only [List.head?_cons, Option.some.injEq] at hc
      subst hc
      interval_cases n <;> simp_all <;> decide
    · rw [natToStr_large h]
      intro c hc
      have hne := natToStr_ne_nil (n / 10)
      rcases he : natToStr (n / 10) with _ | ⟨d, r⟩
      · exact absurd he hne
      · rw [he] at hc
        simp only [List.cons_append, List.head?_cons, Option.some.injEq] at hc
        subst hc
        exact ih (n / 10) (Nat.div_lt_self (by omega) (by omega)) (by omega) d (by rw [he]; rfl)

theorem parseDigitsAux_append (a b : Str) (acc : Nat) :
    parseDigitsAux (a ++ b) acc =
      (parseDigitsAux a acc).bind (fun m => parseDigitsAux b m) := by
  induction a generalizing acc with
  | nil => simp [parseDigitsAux]
  | cons c r ihr =>
    simp only [List.cons_append, parseDigitsAux]
    rcases digitVal c with _ | d
    · simp
    · simp [ihr]

theorem parseDigits_natToStr (n : Nat) : parseDigitsAux (natToStr n) 0 = some n := by
  induction n using Nat.strong_induction_on with
  | _ n ih =>
    by_cases h : n < 10
    · rw [natToStr_small h]
      simp [parseDigitsAux, digitVal_digitChar h]
    · rw [natToStr_large h, parseDigitsAux_append,
        ih (n / 10) (Nat.div_lt_self (by omega) (by omega))]
      simp [parseDigitsAux, digitVal_digitChar (Nat.mod_lt n (by omega))]
      omega

theorem isDigit_not_ws {c : Char} (h : isDigit c = true) : isWs c = false := by
  simp only [isDigit, Bool.and_eq_true, decide_eq_true_eq] at h
  simp only [isWs, Bool.or_eq_false_iff, beq_eq_false_iff_ne]
  refine ⟨⟨⟨?_, ?_⟩, ?_⟩, ?_⟩ <;> rintro rfl <;> simp_all

theorem dash_not_ws : isWs '-' = false := by decide

/-- Characters of `intToStr` are digits or the leading minus sign. -/
theorem intToStr_chars (i : Int) : ∀ c ∈ intToStr i, isDigit c = true ∨ c = '-' := by
  intro c hc
  unfold intToStr at hc
  split_ifs at hc
  · rcases List.mem_cons.1 hc with h | h
    · right; exact h
    · left; exact natToStr_digits _ c h
  · left; exact natToStr_digits _ c hc

theorem trimS_eq_self {l : Str} (h : ∀ c ∈ l, isWs c = false) : trimS l = l := by
  unfold trimS
  rcases l with _ | ⟨c, r⟩
  · rfl
  · rw [List.dropWhile_cons, h c (List.mem_cons_self c r)]
    simp only [Bool.false_eq_true, if_false]
    rcases hr : (c :: r).reverse with _ | ⟨d, t⟩
    · simp at hr
    · have hd : isWs d = false := by
        apply h
        rw [← List.mem_reverse, hr]
        exact List.mem_cons_self d t
      rw [List.dropWhile_cons, hd]
      simp only [Bool.false_eq_true, if_false]
      rw [← hr, List.reverse_reverse]

theorem jsNumberStr_cons {s : Str} {c : Char} {ds : Str} (h : trimS s = c :: ds) :
    jsNumberStr s = jsNumAux c ds := by
  unfold jsNumberStr
  rw [h]

/-- JavaScript `Number(string)` of `Number.prototype.toString` round-trips on
integers. -/
theorem jsNumberStr_intToStr (i : Int) : jsNumberStr (intToStr i) = some i := by
  have htrim : trimS (intToStr i) = intToStr i :=
    trimS_eq_self (fun c hc => by
      rcases intToStr_chars i c hc with h | h
      · exact isDigit_not_ws h
      · subst h; exact dash_not_ws)
  by_cases hi : i < 0
  · have he : intToStr i = '-' :: natToStr i.natAbs := by
      unfold intToStr
      rw [if_pos hi]
    rw [jsNumberStr_cons (by rw [htrim, he])]
    unfold jsNumAux
    rw [if_pos rfl, if_neg (natToStr_ne_nil i.natAbs), parseDigits_natToStr]
    simp only [Option.map_some', Option.some.injEq]
    omega
  · have hne := natToStr_ne_nil i.toNat
    rcases he : natToStr i.toNat with _ | ⟨d, r⟩
    · exact absurd he hne
    · have hd : isDigit d = true :=
        natToStr_digits _ d (by rw [he]; exact List.mem_cons_self d r)
      have hd1 : d ≠ '-' := by
        rintro rfl
        simp [isDigit] at hd
      have hd2 : d ≠ '+' := by
        rintro rfl
        simp [isDigit] at hd
      have he2 : intToStr i = d :: r := by
        unfold intToStr
        rw [if_neg hi, he]
      rw [jsNumberStr_cons (by rw [htrim, he2])]
      unfold jsNumAux
      rw [if_neg hd1, if_neg hd2, ← he, parseDigits_natToStr]
      simp only [Option.map_some', Option.some.injEq]
      omega

/-! ### String escaping round-trip -/

theorem hexVal_hexDig {k : Nat} (h : k < 16) : hexVal (hexDig k) = some k := by
  interval_cases k <;> decide

theorem pStrBody_roundtrip (s rest : Str) :
    pStrBody (escStr s ++ '"' :: rest) = some (s, rest) := by
  induction s with
  | nil =>
    show pStrBody ('"' :: rest) = some ([], rest)
    rw [pStrBody.eq_def]
    simp
  | cons c s ih =>
    have hesc : escStr (c :: s) = escChar c ++ escStr s := rfl
    rw [hesc, List.append_assoc]
    unfold escChar
    split_ifs with h1 h2 h3 h4 h5 h6 h7 h8
    · subst h1
      rw [List.cons_append, List.cons_append, List.nil_append, pStrBody.eq_def]
      simp [escSimple, ih]
    · subst h2
      rw [List.cons_append, List.cons_append, List.nil_append, pStrBody.eq_def]
      simp [escSimple, ih]
    · subst h3
      rw [List.cons_append, List.cons_append, List.nil_append, pStrBody.eq_def]
      simp [escSimple, ih]
    · subst h4
      rw [List.cons_append, List.cons_append, List.nil_append, pStrBody.eq_def]
      simp [escSimple, ih]
    · subst h5
      rw [List.cons_append, List.cons_append, List.nil_append, pStrBody.eq_def]
      simp [escSimple, ih]
    · subst h6
      rw [List.cons_append, List.cons_append, List.nil_append, pStrBody.eq_def]
      simp [escSimple, ih]
    · subst h7
      rw [List.cons_append, List.cons_append, List.nil_append, pStrBody.eq_def]
      simp [escSimple, ih]
    · have hhi : hexVal (hexDig (c.toNat / 16)) = some (c.toNat / 16) :=
        hexVal_hexDig (by omega)
      have hlo : hexVal (hexDig (c.toNat % 16)) = some (c.toNat % 16) :=
        hexVal_hexDig (Nat.mod_lt _ (by omega))
      have h0 : hexVal '0' = some 0 := by decide
      simp only [List.cons_append, List.nil_append]
      rw [pStrBody.eq_def]
      simp only [reduceIte, h0, hhi, hlo, ih, Option.map_some']
      rw [show ((0 * 16 + 0) * 16 + c.toNat / 16) * 16 + c.toNat % 16 = c.toNat from by omega,
        Char.ofNat_toNat, if_neg (show ¬ ('\\' = '"') by decide)]
    · rw [List.cons_append, List.nil_append, pStrBody.eq_def]
      simp [h1, h2, ih]


/-! ### Well-formedness and size of JSON values -/

mutual

/-- A value is well-formed when every object it contains has pairwise
distinct keys; `JSON.parse` only produces such values. -/
def wfJ : JVal → Bool
  | .jnull => true
  | .jbool _ => true
  | .jnum _ => true
  | .jstr _ => true
  | .jarr xs => wfItems xs
  | .jobj fs => nodupKeys fs && wfFields fs

def wfItems : List JVal → Bool
  | [] => true
  | v :: r => wfJ v && wfItems r

def wfFields : List (Str × JVal) → Bool
  | [] => true
  | (_, v) :: r => wfJ v && wfFields r

end

mutual

/-- Fuel needed to parse a serialized value. -/
def jsize : JVal → Nat
  | .jnull => 1
  | .jbool _ => 1
  | .jnum _ => 1
  | .jstr _ => 1
  | .jarr xs => 1 + isize xs
  | .jobj fs => 1 + fsize fs

def isize : List JVal → Nat
  | [] => 0
  | v :: r => 1 + jsize v + isize r

def fsize : List (Str × JVal) → Nat
  | [] => 0
  | (_, v) :: r => 1 + jsize v + fsize r

end

theorem jsize_pos (v : JVal) : 1 ≤ jsize v := by
  cases v <;> simp [jsize]

/-! ### Association list lemmas -/

theorem setAssoc_of_lookup_none {α : Type} {acc : List (Str × α)} {k : Str} {v : α}
    (h : lookupAssoc acc k = none) : setAssoc acc k v = acc ++ [(k, v)] := by
  induction acc with
  | nil => rfl
  | cons f r ih =>
    obtain ⟨k', v'⟩ := f
    rw [lookupAssoc] at h
    rw [setAssoc]
    by_cases hk : k' = k
    · rw [if_pos hk] at h
      exact absurd h (by simp)
    · rw [if_neg hk] at h
      rw [if_neg hk, ih h]
      simp

theorem nodupKeys_lookup_none {α : Type} {acc fs : List (Str × α)} {k : Str} {v : α}
    (h : nodupKeys (acc ++ (k, v) :: fs) = true) : lookupAssoc acc k = none := by
  induction acc with
  | nil => rfl
  | cons f r ih =>
    obtain ⟨k', v'⟩ := f
    rw [List.cons_append, nodupKeys, Bool.and_eq_true] at h
    obtain ⟨hall, hrest⟩ := h
    rw [lookupAssoc]
    have hkk : ¬k' = k := by
      have := List.all_eq_true.1 hall (k, v) (by simp)
      simp only [decide_eq_true_eq] at this
      exact fun hk => this hk.symm
    rw [if_neg hkk]
    exact ih hrest

/-! ### Dispatch facts for the first character of a serialized value -/

/-- The first character of input that remains after a serialized numeral must
not be a digit, otherwise the numeral's end is ambiguous. -/
def headNotDigit (rest : Str) : Prop :=
  ∀ c, rest.head? = some c → isDigit c = false

theorem headNotDigit_nil : headNotDigit [] := by
  intro c hc
  simp at hc

theorem headNotDigit_cons {c : Char} {r : Str} (h : isDigit c = false) :
    headNotDigit (c :: r) := by
  intro d hd
  simp only [List.head?_cons, Option.some.injEq] at hd
  subst hd
  exact h

theorem takeDigits_spec {ds rest : Str} {acc v : Nat}
    (hds : ∀ c ∈ ds, isDigit c = true) (hrest : headNotDigit rest)
    (hp : parseDigitsAux ds acc = some v) :
    takeDigits (ds ++ rest) acc = (v, rest) := by
  induction ds generalizing acc with
  | nil =>
    rw [parseDigitsAux] at hp
    obtain rfl : acc = v := by simpa using hp
    cases rest with
    | nil => rfl
    | cons c r =>
      rw [List.nil_append, takeDigits]
      have := hrest c rfl
      rw [show digitVal c = none by simp [digitVal, this]]
  | cons c ds ih =>
    have hc : isDigit c = true := hds c (List.mem_cons_self c ds)
    rw [parseDigitsAux] at hp
    rw [List.cons_append, takeDigits]
    rw [show digitVal c = some (c.toNat - 48) by simp [digitVal, hc]] at hp ⊢
    exact ih (fun d hd => hds d (List.mem_cons_of_mem c hd)) hp

theorem pNumNat_natToStr {n : Nat} {rest : Str} (hrest : headNotDigit rest) :
    pNumNat (natToStr n ++ rest) = some (n, rest) := by
  by_cases h0 : n = 0
  · subst h0
    rw [show natToStr 0 = ['0'] from natToStr_small (by omega)]
    rw [List.cons_append, List.nil_append]
    cases rest with
    | nil => rfl
    | cons c r =>
      have hc := hrest c rfl
      simp [pNumNat, hc]
  · have hne := natToStr_ne_nil n
    rcases he : natToStr n with _ | ⟨d, ds⟩
    · exact absurd he hne
    · have hd : isDigit d = true := natToStr_digits n d (by rw [he]; exact List.mem_cons_self d ds)
      have hd0 : d ≠ '0' := natToStr_head_ne_zero h0 d (by rw [he]; rfl)
      rw [List.cons_append]
      simp only [pNumNat]
      rw [if_neg hd0]
      simp only [show digitVal d = some (d.toNat - 48) by simp [digitVal, hd]]
      have hp : parseDigitsAux (d :: ds) 0 = some n := by rw [← he]; exact parseDigits_natToStr n
      rw [parseDigitsAux] at hp
      simp only [show digitVal d = some (d.toNat - 48) by simp [digitVal, hd]] at hp
      rw [takeDigits_spec (fun c hc => natToStr_digits n c (by rw [he]; exact List.mem_cons_of_mem d hc)) hrest (by simpa using hp)]

theorem pNum_intToStr {i : Int} {rest : Str} (hrest : headNotDigit rest) :
    pNum (intToStr i ++ rest) = some (.jnum i, rest) := by
  by_cases hi : i < 0
  · rw [show intToStr i = '-' :: natToStr i.natAbs from by unfold intToStr; rw [if_pos hi]]
    rw [List.cons_append]
    simp only [pNum]
    rw [if_pos trivial, pNumNat_natToStr hrest]
    simp only [Option.map_some', Option.some.injEq, Prod.mk.injEq, JVal.jnum.injEq]
    exact ⟨by omega, trivial⟩
  · have hne := natToStr_ne_nil i.toNat
    rcases he : natToStr i.toNat with _ | ⟨d, ds⟩
    · exact absurd he hne
    · have hd : isDigit d = true :=
        natToStr_digits _ d (by rw [he]; exact List.mem_cons_self d ds)
      have hd1 : d ≠ '-' := by
        rintro rfl
        simp [isDigit] at hd
      rw [show intToStr i = d :: ds from by unfold intToStr; rw [if_neg hi, he]]
      rw [List.cons_append]
      simp only [pNum]
      rw [if_neg hd1]
      rw [show (d :: (ds ++ rest)) = natToStr i.toNat ++ rest from by rw [he]; rfl]
      rw [pNumNat_natToStr hrest]
      simp only [Option.map_some', Option.some.injEq, Prod.mk.injEq, JVal.jnum.injEq]
      exact ⟨by omega, trivial⟩

/-- Characters that can start a serialized JSON value. -/
def valHead (c : Char) : Prop :=
  c = lbrace ∨ c = '[' ∨ c = '"' ∨ c = 't' ∨ c = 'f' ∨ c = 'n' ∨ c = '-' ∨ isDigit c = true

theorem strJVal_cons (v : JVal) : ∃ c cs, strJVal v = c :: cs ∧ valHead c := by
  cases v with
  | jnull => exact ⟨'n', _, rfl, by right; right; right; right; right; left; rfl⟩
  | jbool b =>
    cases b
    · exact ⟨'f', _, rfl, by right; right; right; right; left; rfl⟩
    · exact ⟨'t', _, rfl, by right; right; right; left; rfl⟩
  | jnum n =>
    by_cases hi : n < 0
    · refine ⟨'-', _, by unfold strJVal intToStr; rw [if_pos hi], ?_⟩
      right; right; right; right; right; right; left; rfl
    · have hne := natToStr_ne_nil n.toNat
      rcases he : natToStr n.toNat with _ | ⟨d, ds⟩
      · exact absurd he hne
      · refine ⟨d, ds, by unfold strJVal intToStr; rw [if_neg hi, he], ?_⟩
        right; right; right; right; right; right; right
        exact natToStr_digits _ d (by rw [he]; exact List.mem_cons_self d ds)
  | jstr s => exact ⟨'"', _, rfl, by right; right; left; rfl⟩
  | jarr xs => exact ⟨'[', _, rfl, by right; left; rfl⟩
  | jobj fs => exact ⟨lbrace, _, rfl, by left; rfl⟩

theorem valHead_ne_comma {c : Char} (h : valHead c) : c ≠ ',' := by
  rcases h with h | h | h | h | h | h | h | h <;> try (subst h; decide)
  rintro rfl
  exact absurd h (by decide)

theorem valHead_ne_rsquare {c : Char} (h : valHead c) : c ≠ ']' := by
  rcases h with h | h | h | h | h | h | h | h <;> try (subst h; decide)
  rintro rfl
  exact absurd h (by decide)

theorem valHead_ne_rbrace {c : Char} (h : valHead c) : c ≠ rbrace := by
  rcases h with h | h | h | h | h | h | h | h <;> try (subst h; decide)
  rintro rfl
  exact absurd h (by decide)


/-! ### The serializer/parser round-trip -/

theorem numHead_not_special {d : Char} (h : d = '-' ∨ isDigit d = true) :
    ¬d = lbrace ∧ ¬d = '[' ∧ ¬d = '"' ∧ ¬d = 't' ∧ ¬d = 'f' ∧ ¬d = 'n' := by
  rcases h with h | h
  · subst h
    exact ⟨by decide, by decide, by decide, by decide, by decide, by decide⟩
  · refine ⟨?_, ?_, ?_, ?_, ?_, ?_⟩ <;> rintro rfl <;> exact absurd h (by decide)

theorem intToStr_cons (i : Int) :
    ∃ d ds, intToStr i = d :: ds ∧ (d = '-' ∨ isDigit d = true) := by
  by_cases hi : i < 0
  · exact ⟨'-', natToStr i.natAbs, by unfold intToStr; rw [if_pos hi], Or.inl rfl⟩
  · have hne := natToStr_ne_nil i.toNat
    rcases he : natToStr i.toNat with _ | ⟨d, ds⟩
    · exact absurd he hne
    · refine ⟨d, ds, by unfold intToStr; rw [if_neg hi, he], Or.inr ?_⟩
      exact natToStr_digits _ d (by rw [he]; exact List.mem_cons_self d ds)

theorem parse_strJVal_fuel : ∀ fuel : Nat,
    (∀ v rest, jsize v ≤ fuel → wfJ v = true → headNotDigit rest →
      pVal fuel (strJVal v ++ rest) = some (v, rest)) ∧
    (∀ fs acc rest, fs ≠ [] → fsize fs ≤ fuel → nodupKeys (acc ++ fs) = true →
      wfFields fs = true →
      pFields fuel acc (strJFields fs ++ rbrace :: rest) = some (.jobj (acc ++ fs), rest)) ∧
    (∀ xs acc rest, xs ≠ [] → isize xs ≤ fuel → wfItems xs = true →
      pItems fuel acc (strJItems xs ++ ']' :: rest) = some (.jarr (acc ++ xs), rest)) := by
  intro fuel
  induction fuel with
  | zero =>
    refine ⟨?_, ?_, ?_⟩
    · intro v rest hsz _ _
      exact absurd hsz (by have := jsize_pos v; omega)
    · intro fs acc rest hne hsz _ _
      rcases fs with _ | ⟨⟨k, v⟩, fs⟩
      · exact absurd rfl hne
      · rw [fsize] at hsz
        omega
    · intro xs acc rest hne hsz _
      rcases xs with _ | ⟨x, xs⟩
      · exact absurd rfl hne
      · rw [isize] at hsz
        omega
  | succ fuel ih =>
    obtain ⟨ihv, ihf, ihi⟩ := ih
    refine ⟨?_, ?_, ?_⟩
    · intro v rest hsz hwf hrest
      cases v with
      | jnull =>
        show pVal (fuel + 1) (['n', 'u', 'l', 'l'] ++ rest) = some (.jnull, rest)
        simp only [List.cons_append, List.nil_append, pVal]
        rw [if_neg (by decide), if_neg (by decide), if_neg (by decide), if_neg (by decide),
          if_neg (by decide), if_pos trivial]
      | jbool b =>
        cases b
        · show pVal (fuel + 1) (['f', 'a', 'l', 's', 'e'] ++ rest) = some (.jbool false, rest)
          simp only [List.cons_append, List.nil_append, pVal]
          rw [if_neg (by decide), if_neg (by decide), if_neg (by decide), if_neg (by decide),
            if_pos trivial]
        · show pVal (fuel + 1) (['t', 'r', 'u', 'e'] ++ rest) = some (.jbool true, rest)
          simp only [List.cons_append, List.nil_append, pVal]
          rw [if_neg (by decide), if_neg (by decide), if_neg (by decide), if_pos trivial]
      | jnum n =>
        obtain ⟨d, ds, he, hd⟩ := intToStr_cons n
        obtain ⟨n1, n2, n3, n4, n5, n6⟩ := numHead_not_special hd
        show pVal (fuel + 1) (intToStr n ++ rest) = some (.jnum n, rest)
        rw [he, List.cons_append]
        simp only [pVal]
        rw [if_neg n1, if_neg n2, if_neg n3, if_neg n4, if_neg n5, if_neg n6]
        rw [show d :: (ds ++ rest) = intToStr n ++ rest from by rw [he]; rfl]
        exact pNum_intToStr hrest
      | jstr str =>
        show pVal (fuel + 1) (('"' :: escStr str ++ ['"']) ++ rest) = some (.jstr str, rest)
        have harr : ('"' :: escStr str ++ ['"']) ++ rest = '"' :: (escStr str ++ '"' :: rest) := by
          simp
        rw [harr]
        simp only [pVal]
        rw [if_neg (by decide), if_neg (by decide), if_pos trivial, pStrBody_roundtrip]
        rfl
      | jarr xs =>
        rcases xs with _ | ⟨x, xs⟩
        · show pVal (fuel + 1) ('[' :: ']' :: rest) = some (.jarr [], rest)
          simp only [pVal]
          rw [if_neg (by decide), if_pos trivial, if_pos trivial]
        · obtain ⟨c, cs, hc, hhead⟩ := strJVal_cons x
          have ht : ∃ t, strJItems (x :: xs) = c :: t := by
            rcases xs with _ | ⟨y, ys⟩
            · exact ⟨cs, by rw [show strJItems [x] = strJVal x from rfl, hc]⟩
            · refine ⟨cs ++ ',' :: strJItems (y :: ys), ?_⟩
              rw [show strJItems (x :: y :: ys) = strJVal x ++ ',' :: strJItems (y :: ys) from rfl,
                hc]
              rfl
          obtain ⟨t, ht⟩ := ht
          show pVal (fuel + 1) (('[' :: strJItems (x :: xs) ++ [']']) ++ rest) =
            some (.jarr (x :: xs), rest)
          have harr : ('[' :: strJItems (x :: xs) ++ [']']) ++ rest =
              '[' :: (c :: (t ++ ']' :: rest)) := by
            rw [ht]
            simp
          rw [harr]
          simp only [pVal]
          rw [if_neg (by decide), if_pos trivial, if_neg (valHead_ne_rsquare hhead)]
          rw [show c :: (t ++ ']' :: rest) = strJItems (x :: xs) ++ ']' :: rest from by
            rw [ht]; rfl]
          have hsz2 : isize (x :: xs) ≤ fuel := by
            rw [show jsize (.jarr (x :: xs)) = 1 + isize (x :: xs) from rfl] at hsz
            omega
          have hres := ihi (x :: xs) [] rest (by simp) hsz2
            (by rw [show wfJ (.jarr (x :: xs)) = wfItems (x :: xs) from rfl] at hwf; exact hwf)
          rw [List.nil_append] at hres
          exact hres
      | jobj fs =>
        rcases fs with _ | ⟨⟨k, v⟩, fs⟩
        · show pVal (fuel + 1) (lbrace :: rbrace :: rest) = some (.jobj [], rest)
          simp only [pVal]
          rw [if_pos trivial, if_pos trivial]
        · show pVal (fuel + 1) ((lbrace :: strJFields ((k, v) :: fs) ++ [rbrace]) ++ rest) =
            some (.jobj ((k, v) :: fs), rest)
          have ht : ∃ t, strJFields ((k, v) :: fs) = '"' :: t := by
            rcases fs with _ | ⟨f, r⟩
            · refine ⟨escStr k ++ '"' :: ':' :: strJVal v, ?_⟩
              rw [show strJFields [(k, v)] = quoteStr k ++ ':' :: strJVal v from rfl, quoteStr]
              simp
            · refine ⟨escStr k ++ '"' :: ':' :: (strJVal v ++ ',' :: strJFields (f :: r)), ?_⟩
              rw [show strJFields ((k, v) :: f :: r) =
                  quoteStr k ++ ':' :: strJVal v ++ ',' :: strJFields (f :: r) from rfl, quoteStr]
              simp
          obtain ⟨t, ht⟩ := ht
          have harr : (lbrace :: strJFields ((k, v) :: fs) ++ [rbrace]) ++ rest =
              lbrace :: ('"' :: (t ++ rbrace :: rest)) := by
            rw [ht]
            simp
          rw [harr]
          simp only [pVal]
          rw [if_pos trivial, if_neg (by decide)]
          rw [show '"' :: (t ++ rbrace :: rest) = strJFields ((k, v) :: fs) ++ rbrace :: rest from by
            rw [ht]; rfl]
          have hsz2 : fsize ((k, v) :: fs) ≤ fuel := by
            rw [show jsize (.jobj ((k, v) :: fs)) = 1 + fsize ((k, v) :: fs) from rfl] at hsz
            omega
          have hwf2 : nodupKeys ((k, v) :: fs) = true ∧ wfFields ((k, v) :: fs) = true := by
            rw [show wfJ (.jobj ((k, v) :: fs)) =
              (nodupKeys ((k, v) :: fs) && wfFields ((k, v) :: fs)) from rfl,
              Bool.and_eq_true] at hwf
            exact hwf
          have hres := ihf ((k, v) :: fs) [] rest (by simp) hsz2 (by simpa using hwf2.1) hwf2.2
          rw [List.nil_append] at hres
          exact hres
    · intro fs acc rest hne hsz hnodup hwf
      rcases fs with _ | ⟨⟨k, v⟩, fs⟩
      · exact absurd rfl hne
      · rw [fsize] at hsz
        rw [wfFields, Bool.and_eq_true] at hwf
        obtain ⟨hwv, hwr⟩ := hwf
        have hset : setAssoc acc k v = acc ++ [(k, v)] :=
          setAssoc_of_lookup_none (nodupKeys_lookup_none hnodup)
        rcases fs with _ | ⟨f, fr⟩
        · have harr : strJFields [(k, v)] ++ rbrace :: rest =
              '"' :: (escStr k ++ '"' :: (':' :: (strJVal v ++ rbrace :: rest))) := by
            rw [show strJFields [(k, v)] = quoteStr k ++ ':' :: strJVal v from rfl, quoteStr]
            simp
          rw [harr]
          simp only [pFields]
          rw [if_pos trivial]
          simp only [pStrBody_roundtrip]
          rw [if_pos (by trivial)]
          simp only [ihv v (rbrace :: rest) (by omega) hwv (headNotDigit_cons (by decide))]
          rw [if_neg (by decide), if_pos (by trivial), hset]
        · have harr : strJFields ((k, v) :: f :: fr) ++ rbrace :: rest =
              '"' :: (escStr k ++ '"' :: (':' :: (strJVal v ++
                ',' :: (strJFields (f :: fr) ++ rbrace :: rest)))) := by
            rw [show strJFields ((k, v) :: f :: fr) =
              quoteStr k ++ ':' :: strJVal v ++ ',' :: strJFields (f :: fr) from rfl, quoteStr]
            simp
          rw [harr]
          simp only [pFields]
          rw [if_pos trivial]
          simp only [pStrBody_roundtrip]
          rw [if_pos (by trivial)]
          simp only [ihv v (',' :: (strJFields (f :: fr) ++ rbrace :: rest)) (by omega) hwv
            (headNotDigit_cons (by decide))]
          rw [if_pos (by trivial), hset]
          have hnodup2 : nodupKeys ((acc ++ [(k, v)]) ++ f :: fr) = true := by
            rw [List.append_assoc]
            simpa using hnodup
          have hres := ihf (f :: fr) (acc ++ [(k, v)]) rest (by simp) (by omega) hnodup2 hwr
          rw [hres, List.append_assoc]
          rfl
    · intro xs acc rest hne hsz hwf
      rcases xs with _ | ⟨x, xs⟩
      · exact absurd rfl hne
      · rw [isize] at hsz
        rw [wfItems, Bool.and_eq_true] at hwf
        obtain ⟨hwx, hwr⟩ := hwf
        rcases xs with _ | ⟨y, ys⟩
        · rw [show strJItems [x] ++ ']' :: rest = strJVal x ++ ']' :: rest from by
            rw [show strJItems [x] = strJVal x from rfl]]
          simp only [pItems]
          simp only [ihv x (']' :: rest) (by omega) hwx (headNotDigit_cons (by decide))]
          rw [if_neg (by decide), if_pos (by trivial)]
        · have harr : strJItems (x :: y :: ys) ++ ']' :: rest =
              strJVal x ++ ',' :: (strJItems (y :: ys) ++ ']' :: rest) := by
            rw [show strJItems (x :: y :: ys) = strJVal x ++ ',' :: strJItems (y :: ys) from rfl]
            simp
          rw [harr]
          simp only [pItems]
          simp only [ihv x (',' :: (strJItems (y :: ys) ++ ']' :: rest)) (by omega) hwx
            (headNotDigit_cons (by decide))]
          rw [if_pos (by trivial)]
          have hres := ihi (y :: ys) (acc ++ [x]) rest (by simp) (by omega) hwr
          rw [hres, List.append_assoc]
          rfl


/-! ### Round-trip at the level of whole lines -/

theorem valHead_not_ws {c : Char} (h : valHead c) : isWs c = false := by
  rcases h with h | h | h | h | h | h | h | h <;> try (subst h; decide)
  exact isDigit_not_ws h

theorem getLast_concat_char (l : Str) (c : Char) : (l ++ [c]).getLast? = some c := by
  simp [List.getLast?_append]

theorem mem_of_getLast {l : Str} {c : Char} (h : l.getLast? = some c) : c ∈ l := by
  rw [← List.head?_reverse] at h
  have hm : c ∈ l.reverse := by
    rcases hr : l.reverse with _ | ⟨d, t⟩
    · rw [hr] at h
      simp at h
    · rw [hr] at h
      simp only [List.head?_cons, Option.some.injEq] at h
      subst h
      exact List.mem_cons_self _ _
  simpa using hm

theorem strJVal_getLast_not_ws (v : JVal) :
    ∀ c, (strJVal v).getLast? = some c → isWs c = false := by
  cases v with
  | jnull => intro c hc; simp only [strJVal] at hc; simp at hc; subst hc; decide
  | jbool b =>
    cases b <;> (intro c hc; simp only [strJVal] at hc; simp at hc; subst hc; decide)
  | jnum n =>
    intro c hc
    have hmem : c ∈ intToStr n := mem_of_getLast hc
    rcases intToStr_chars n c hmem with h | h
    · exact isDigit_not_ws h
    · subst h; exact dash_not_ws
  | jstr s =>
    intro c hc
    rw [show strJVal (.jstr s) = '"' :: escStr s ++ ['"'] from rfl] at hc
    rw [show '"' :: escStr s ++ ['"'] = ('"' :: escStr s) ++ ['"'] from rfl,
      getLast_concat_char] at hc
    obtain rfl : c = '"' := by simpa using hc.symm
    decide
  | jarr xs =>
    intro c hc
    rw [show strJVal (.jarr xs) = ('[' :: strJItems xs) ++ [']'] from rfl,
      getLast_concat_char] at hc
    obtain rfl : c = ']' := by simpa using hc.symm
    decide
  | jobj fs =>
    intro c hc
    rw [show strJVal (.jobj fs) = (lbrace :: strJFields fs) ++ [rbrace] from rfl,
      getLast_concat_char] at hc
    obtain rfl : c = rbrace := by simpa using hc.symm
    decide

theorem trimS_eq_of {l : Str} (h1 : ∀ c, l.head? = some c → isWs c = false)
    (h2 : ∀ c, l.getLast? = some c → isWs c = false) : trimS l = l := by
  unfold trimS
  rcases l with _ | ⟨c, r⟩
  · rfl
  · rw [List.dropWhile_cons, h1 c rfl]
    simp only [Bool.false_eq_true, if_false]
    rcases hr : (c :: r).reverse with _ | ⟨d, t⟩
    · simp at hr
    · have hd : isWs d = false := by
        apply h2
        rw [← List.head?_reverse, hr]
        rfl
      rw [List.dropWhile_cons, hd]
      simp only [Bool.false_eq_true, if_false]
      rw [← hr, List.reverse_reverse]

theorem trimS_strJVal (v : JVal) : trimS (strJVal v) = strJVal v := by
  refine trimS_eq_of ?_ (strJVal_getLast_not_ws v)
  intro c hc
  obtain ⟨d, ds, he, hhead⟩ := strJVal_cons v
  rw [he] at hc
  simp only [List.head?_cons, Option.some.injEq] at hc
  subst hc
  exact valHead_not_ws hhead

theorem quoteStr_length (s : Str) : (quoteStr s).length = (escStr s).length + 2 := by
  simp [quoteStr]

theorem jsize_le_strJVal_length : ∀ n : Nat,
    (∀ v, jsize v ≤ n → jsize v ≤ (strJVal v).length) ∧
    (∀ fs, fsize fs ≤ n → fsize fs ≤ (strJFields fs).length + 1) ∧
    (∀ xs, isize xs ≤ n → isize xs ≤ (strJItems xs).length + 1) := by
  intro n
  induction n with
  | zero =>
    refine ⟨?_, ?_, ?_⟩
    · intro v hv
      exact absurd hv (by have := jsize_pos v; omega)
    · intro fs hfs
      omega
    · intro xs hxs
      omega
  | succ n ih =>
    obtain ⟨ihv, ihf, ihi⟩ := ih
    refine ⟨?_, ?_, ?_⟩
    · intro v hv
      cases v with
      | jnull => simp [jsize, strJVal]
      | jbool b => cases b <;> simp [jsize, strJVal]
      | jnum m =>
        rw [show jsize (.jnum m) = 1 from rfl, show strJVal (.jnum m) = intToStr m from rfl]
        rcases he : intToStr m with _ | ⟨d, ds⟩
        · obtain ⟨d, ds, he2, -⟩ := intToStr_cons m
          rw [he2] at he
          exact absurd he (by simp)
        · simp
      | jstr s =>
        rw [show jsize (.jstr s) = 1 from rfl, show strJVal (.jstr s) = quoteStr s from rfl,
          quoteStr_length]
        omega
      | jarr xs =>
        rw [show jsize (.jarr xs) = 1 + isize xs from rfl] at hv ⊢
        have h1 : isize xs ≤ n := by omega
        have h2 := ihi xs h1
        rw [show strJVal (.jarr xs) = '[' :: strJItems xs ++ [']'] from rfl]
        simp only [List.length_cons, List.length_append, List.length_singleton]
        omega
      | jobj fs =>
        rw [show jsize (.jobj fs) = 1 + fsize fs from rfl] at hv ⊢
        have h1 : fsize fs ≤ n := by omega
        have h2 := ihf fs h1
        rw [show strJVal (.jobj fs) = lbrace :: strJFields fs ++ [rbrace] from rfl]
        simp only [List.length_cons, List.length_append, List.length_singleton]
        omega
    · intro fs hfs
      rcases fs with _ | ⟨⟨k, v⟩, fs⟩
      · simp [fsize]
      · rw [fsize] at hfs ⊢
        have h1 : jsize v ≤ n := by omega
        have h2 : fsize fs ≤ n := by omega
        have hv := ihv v h1
        rcases fs with _ | ⟨f, fr⟩
        · rw [show strJFields [(k, v)] = quoteStr k ++ ':' :: strJVal v from rfl]
          simp only [List.length_append, List.length_cons, quoteStr_length, fsize]
          omega
        · have hr := ihf (f :: fr) h2
          rw [show strJFields ((k, v) :: f :: fr) =
            quoteStr k ++ ':' :: strJVal v ++ ',' :: strJFields (f :: fr) from rfl]
          simp only [List.length_append, List.length_cons, quoteStr_length]
          omega
    · intro xs hxs
      rcases xs with _ | ⟨x, xs⟩
      · simp [isize]
      · rw [isize] at hxs ⊢
        have h1 : jsize x ≤ n := by omega
        have h2 : isize xs ≤ n := by omega
        have hx := ihv x h1
        rcases xs with _ | ⟨y, ys⟩
        · rw [show strJItems [x] = strJVal x from rfl]
          simp only [isize]
          omega
        · have hr := ihi (y :: ys) h2
          rw [show strJItems (x :: y :: ys) = strJVal x ++ ',' :: strJItems (y :: ys) from rfl]
          simp only [List.length_append, List.length_cons]
          omega

/-- `JSON.parse` inverts `JSON.stringify` on well-formed values. -/
theorem parseJson_strJVal {v : JVal} (hwf : wfJ v = true) :
    parseJson (strJVal v) = some v := by
  unfold parseJson
  rw [trimS_strJVal]
  have hsz : jsize v ≤ (strJVal v).length + 1 := by
    have := (jsize_le_strJVal_length (jsize v)).1 v (Nat.le_refl _)
    omega
  have hv := (parse_strJVal_fuel ((strJVal v).length + 1)).1 v [] hsz hwf headNotDigit_nil
  rw [List.append_nil] at hv
  simp only [hv]


/-! ### Values produced by the parser are well-formed -/

theorem setAssoc_all_keys {α : Type} {r : List (Str × α)} {k : Str} {v : α}
    (q : Str → Bool) (hr : r.all (fun f => q f.1) = true) (hk : q k = true) :
    (setAssoc r k v).all (fun f => q f.1) = true := by
  induction r with
  | nil => simpa [setAssoc]
  | cons f r ih =>
    obtain ⟨k', v'⟩ := f
    rw [List.all_cons, Bool.and_eq_true] at hr
    rw [setAssoc]
    by_cases hkk : k' = k
    · rw [if_pos hkk, List.all_cons, Bool.and_eq_true]
      exact ⟨hk, hr.2⟩
    · rw [if_neg hkk, List.all_cons, Bool.and_eq_true]
      exact ⟨hr.1, ih hr.2⟩

theorem setAssoc_nodup {acc : List (Str × JVal)} {k : Str} {v : JVal}
    (h : nodupKeys acc = true) : nodupKeys (setAssoc acc k v) = true := by
  induction acc with
  | nil => simp [setAssoc, nodupKeys]
  | cons f r ih =>
    obtain ⟨k', v'⟩ := f
    rw [nodupKeys, Bool.and_eq_true] at h
    rw [setAssoc]
    by_cases hkk : k' = k
    · subst hkk
      rw [if_pos rfl, nodupKeys, Bool.and_eq_true]
      exact h
    · rw [if_neg hkk, nodupKeys, Bool.and_eq_true]
      refine ⟨?_, ih h.2⟩
      refine setAssoc_all_keys (fun s => decide (s ≠ k')) h.1 ?_
      exact decide_eq_true (fun he => hkk he.symm)

theorem setAssoc_wfFields {acc : List (Str × JVal)} {k : Str} {v : JVal}
    (h : wfFields acc = true) (hv : wfJ v = true) :
    wfFields (setAssoc acc k v) = true := by
  induction acc with
  | nil => simpa [setAssoc, wfFields]
  | cons f r ih =>
    obtain ⟨k', v'⟩ := f
    rw [wfFields, Bool.and_eq_true] at h
    rw [setAssoc]
    by_cases hkk : k' = k
    · rw [if_pos hkk, wfFields, Bool.and_eq_true]
      exact ⟨hv, h.2⟩
    · rw [if_neg hkk, wfFields, Bool.and_eq_true]
      exact ⟨h.1, ih h.2⟩

theorem wfItems_append {acc : List JVal} {v : JVal}
    (h : wfItems acc = true) (hv : wfJ v = true) : wfItems (acc ++ [v]) = true := by
  induction acc with
  | nil => simpa [wfItems]
  | cons x r ih =>
    rw [wfItems, Bool.and_eq_true] at h
    rw [List.cons_append, wfItems, Bool.and_eq_true]
    exact ⟨h.1, ih h.2⟩

theorem pNum_shape {s : Str} {v : JVal} {r : Str} (h : pNum s = some (v, r)) :
    ∃ n, v = .jnum n := by
  rcases s with _ | ⟨c, cs⟩
  · simp [pNum] at h
  · rw [pNum] at h
    split_ifs at h
    · rcases hp : pNumNat cs with _ | ⟨p⟩ <;> rw [hp] at h
      · simp at h
      · simp only [Option.map_some', Option.some.injEq, Prod.mk.injEq] at h
        exact ⟨_, h.1.symm⟩
    · rcases hp : pNumNat (c :: cs) with _ | ⟨p⟩ <;> rw [hp] at h
      · simp at h
      · simp only [Option.map_some', Option.some.injEq, Prod.mk.injEq] at h
        exact ⟨_, h.1.symm⟩

theorem pOut_wf : ∀ fuel : Nat,
    (∀ s v r, pVal fuel s = some (v, r) → wfJ v = true) ∧
    (∀ acc s v r, nodupKeys acc = true → wfFields acc = true →
      pFields fuel acc s = some (v, r) → wfJ v = true) ∧
    (∀ acc s v r, pItems fuel acc s = some (v, r) → wfItems acc = true → wfJ v = true) := by
  intro fuel
  induction fuel with
  | zero =>
    refine ⟨?_, ?_, ?_⟩
    · intro s v r h
      rw [show pVal 0 s = none from by cases s <;> rfl] at h
      exact absurd h (by simp)
    · intro acc s v r _ _ h
      rw [show pFields 0 acc s = none from rfl] at h
      exact absurd h (by simp)
    · intro acc s v r h
      rw [show pItems 0 acc s = none from rfl] at h
      exact absurd h (by simp)
  | succ fuel ih =>
    obtain ⟨ihv, ihf, ihi⟩ := ih
    refine ⟨?_, ?_, ?_⟩
    · intro s v r h
      rcases s with _ | ⟨c, rest⟩
      · exact absurd h (by simp [pVal])
      · simp only [pVal] at h
        split_ifs at h with h1 h2 h3 h4 h5 h6
        · split at h
          · exact absurd h (by simp)
          · split_ifs at h with h7
            · obtain ⟨rfl, rfl⟩ : JVal.jobj [] = v ∧ _ = r := by simpa using h
              rfl
            · exact ihf [] _ v r (by decide) (by decide) h
        · split at h
          · exact absurd h (by simp)
          · split_ifs at h with h7
            · obtain ⟨rfl, rfl⟩ : JVal.jarr [] = v ∧ _ = r := by simpa using h
              rfl
            · exact ihi [] _ v r h (by decide)
        · rcases hp : pStrBody rest with _ | ⟨⟨s1, r1⟩⟩ <;> rw [hp] at h
          · exact absurd h (by simp)
          · obtain ⟨rfl, rfl⟩ : JVal.jstr s1 = v ∧ r1 = r := by simpa using h
            rfl
        · split at h
          · obtain ⟨rfl, rfl⟩ : JVal.jbool true = v ∧ _ = r := by simpa using h
            rfl
          · exact absurd h (by simp)
        · split at h
          · obtain ⟨rfl, rfl⟩ : JVal.jbool false = v ∧ _ = r := by simpa using h
            rfl
          · exact absurd h (by simp)
        · split at h
          · obtain ⟨rfl, rfl⟩ : JVal.jnull = v ∧ _ = r := by simpa using h
            rfl
          · exact absurd h (by simp)
        · obtain ⟨n, rfl⟩ := pNum_shape h
          rfl
    · intro acc s v r hnd hwf h
      rcases s with _ | ⟨c0, rest⟩
      · exact absurd h (by simp [pFields])
      · simp only [pFields] at h
        split_ifs at h with h1
        rcases hp : pStrBody rest with _ | ⟨⟨key, r1⟩⟩ <;> rw [hp] at h
        · exact absurd h (by simp)
        · rcases r1 with _ | ⟨c1, r2⟩
          · exact absurd h (by simp)
          · simp only at h
            split_ifs at h with h2
            rcases hv : pVal fuel r2 with _ | ⟨⟨v1, r3⟩⟩ <;> rw [hv] at h
            · exact absurd h (by simp)
            · have hwv1 : wfJ v1 = true := ihv _ _ _ hv
              rcases r3 with _ | ⟨c2, r4⟩
              · exact absurd h (by simp)
              · simp only at h
                split_ifs at h with h3 h4
                · exact ihf (setAssoc acc key v1) r4 v r (setAssoc_nodup hnd)
                    (setAssoc_wfFields hwf hwv1) h
                · obtain ⟨rfl, rfl⟩ : JVal.jobj (setAssoc acc key v1) = v ∧ r4 = r := by
                    simpa using h
                  rw [show wfJ (.jobj (setAssoc acc key v1)) =
                    (nodupKeys (setAssoc acc key v1) && wfFields (setAssoc acc key v1)) from rfl,
                    Bool.and_eq_true]
                  exact ⟨setAssoc_nodup hnd, setAssoc_wfFields hwf hwv1⟩
    · intro acc s v r h hacc
      simp only [pItems] at h
      rcases hv : pVal fuel s with _ | ⟨⟨v1, r1⟩⟩ <;> rw [hv] at h
      · exact absurd h (by simp)
      · have hwv1 : wfJ v1 = true := ihv _ _ _ hv
        rcases r1 with _ | ⟨c1, r2⟩
        · exact absurd h (by simp)
        · simp only at h
          split_ifs at h with h1 h2
          · exact ihi (acc ++ [v1]) r2 v r h (wfItems_append hacc hwv1)
          · obtain ⟨rfl, rfl⟩ : JVal.jarr (acc ++ [v1]) = v ∧ r2 = r := by simpa using h
            rw [show wfJ (.jarr (acc ++ [v1])) = wfItems (acc ++ [v1]) from rfl]
            exact wfItems_append hacc hwv1

/-- Whatever `JSON.parse` accepts is well-formed (object keys are unique). -/
theorem parseJson_wf {line : Str} {v : JVal} (h : parseJson line = some v) :
    wfJ v = true := by
  unfold parseJson at h
  rcases hp : pVal ((trimS line).length + 1) (trimS line) with _ | ⟨⟨v1, r1⟩⟩ <;> rw [hp] at h
  · exact absurd h (by simp)
  · rcases r1 with _ | ⟨c1, r2⟩
    · obtain rfl : v1 = v := by simpa using h
      exact (pOut_wf _).1 _ _ _ hp
    · exact absurd h (by simp)


/-! ### The timer data model

Everything below is translated from `src/src/index.ts` and the later
per-class revisions (`JSONLTimersManager.ts`, `PlainTextTimersManager` in
`Log.ts`, `unnamed/part_007`), which agree except where noted. -/

/-- Convenience: a Lean string literal as a character list. -/
def str (s : String) : Str := s.toList

/-- A timer record as created by `createTimer`:
`id`, `start`, `stop`, and (JSONL only) optional `title`/`description`. -/
structure TimerRec where
  id : Str
  start : Int
  stop : Int
  title : Option Str := none
  description : Option Str := none
deriving DecidableEq

/-- The object literal built by `createTimer` in the JSONL manager: the
`title`/`description` spreads add the field only when the argument is not
`undefined`. -/
def jvalOfTimer (r : TimerRec) : JVal :=
  .jobj ([(str "id", .jstr r.id), (str "start", .jnum r.start), (str "stop", .jnum r.stop)]
    ++ (match r.title with
        | some t => [(str "title", .jstr t)]
        | none => [])
    ++ (match r.description with
        | some d => [(str "description", .jstr d)]
        | none => []))

/-- `JSON.stringify(json, null, 0)` of the record object. -/
def encodeJsonl (r : TimerRec) : Str := strJVal (jvalOfTimer r)

/-- JavaScript property access `v.k` (undefined when absent or not an
object). -/
def getProp (v : JVal) (k : Str) : Option JVal :=
  match v with
  | .jobj fs => lookupAssoc fs k
  | _ => none

/-- Read a parsed JSON value back as a record, when it has the record shape. -/
def timerRecOfJVal (v : JVal) : Option TimerRec :=
  match getProp v (str "id"), getProp v (str "start"), getProp v (str "stop") with
  | some (.jstr i), some (.jnum st), some (.jnum sp) =>
    some ⟨i, st, sp,
      (match getProp v (str "title") with
       | some (.jstr t) => some t
       | _ => none),
      (match getProp v (str "description") with
       | some (.jstr d) => some d
       | _ => none)⟩
  | _, _, _ => none

/-- `JSON.parse` of one line followed by reading the record fields. -/
def decodeJsonl (line : Str) : Option TimerRec :=
  (parseJson line).bind timerRecOfJVal

/-- The fixed-field line written by the plain-text `createTimer`. -/
def plainLine (id : Str) (start stop : Int) : Str :=
  id ++ ' ' :: intToStr start ++ ' ' :: intToStr stop

/-- A record decoded by the plain-text `showTimers`: `Number(...)` of a
missing or non-numeric field is `NaN`, modelled as `none`. -/
structure PTimer where
  id : Str
  start : Option Int
  stop : Option Int
deriving DecidableEq

def jsNumOfOpt : Option Str → Option Int
  | none => none
  | some s => jsNumberStr s

/-- Plain-text decoding of one line, as in `showTimers`:
`timerData.split(" ")` and `Number` on fields 1 and 2. -/
def decodePlainLine (l : Str) : PTimer :=
  ⟨(splitSpace l).headD [], jsNumOfOpt (splitSpace l)[1]?, jsNumOfOpt (splitSpace l)[2]?⟩

/-! ### Syntax validation (`checkTimerfileSyntax`) -/

/-- JavaScript truthiness of a property value. -/
def truthy : Option JVal → Bool
  | none => false
  | some .jnull => false
  | some (.jbool b) => b
  | some (.jnum n) => decide (n ≠ 0)
  | some (.jstr s) => decide (s ≠ [])
  | some (.jarr _) => true
  | some (.jobj _) => true

def isStringProp : Option JVal → Bool
  | some (.jstr _) => true
  | _ => false

def isNumberProp : Option JVal → Bool
  | some (.jnum _) => true
  | _ => false

def propStrLength : Option JVal → Nat
  | some (.jstr s) => s.length
  | _ => 0

/-- Models `parsed.start.toString().trim() === ""` (only evaluated on
numbers, and never true there). -/
def numToStrTrimEmpty : Option JVal → Bool
  | some (.jnum n) => decide (trimS (intToStr n) = [])
  | _ => false

/-- The sequence of falsy/typeof/length checks applied to one parsed line
(`throwing()` fires iff one of these conjuncts fails). -/
def jsonShapeOk (v : JVal) : Bool :=
  (truthy (getProp v (str "id")) && isStringProp (getProp v (str "id")) &&
    (propStrLength (getProp v (str "id")) == 36)) &&
  (truthy (getProp v (str "start")) && isNumberProp (getProp v (str "start")) &&
    !numToStrTrimEmpty (getProp v (str "start"))) &&
  (truthy (getProp v (str "stop")) && isNumberProp (getProp v (str "stop")) &&
    !numToStrTrimEmpty (getProp v (str "stop"))) &&
  !(truthy (getProp v (str "title")) && !isStringProp (getProp v (str "title"))) &&
  !(truthy (getProp v (str "description")) && !isStringProp (getProp v (str "description")))

/-- One line of the JSONL syntax check: `JSON.parse` must succeed and the
shape checks must all pass. -/
def validJsonlLine (line : Str) : Bool :=
  match parseJson line with
  | none => false
  | some v => jsonShapeOk v

/-- `JSONLTimersManager.checkTimerfileSyntax`: split on newline, trim,
drop blank lines, check each remaining line. -/
def checkTimerfileSyntaxJsonl (fileData : Str) : Bool :=
  (((splitNl fileData).map trimS).filter (fun l => decide (l ≠ []))).all validJsonlLine

/-- One line of the plain-text syntax check: exactly three
whitespace-separated fields, the first 36 characters long, fields 1 and 2
non-blank. -/
def validPlainLine (line : Str) : Bool :=
  match splitWs line with
  | [a, b, c] =>
    (a.length == 36) && decide (trimS b ≠ []) && decide (trimS c ≠ [])
  | _ => false

/-- `PlainTextTimersManager.checkTimerfileSyntax`. -/
def checkTimerfileSyntaxPlain (fileData : Str) : Bool :=
  (((splitNl fileData).map trimS).filter (fun l => decide (l ≠ []))).all validPlainLine

/-- The textual shape of a v4 UUID as produced by `uuidv4()`: five
dash-separated groups of lowercase hex digits with lengths 8-4-4-4-12. -/
def isHexLower (c : Char) : Bool :=
  (48 ≤ c.toNat && c.toNat ≤ 57) || (97 ≤ c.toNat && c.toNat ≤ 102)

def isUuid (s : Str) : Bool :=
  match splitOnChar '-' s with
  | [a, b, c, d, e] =>
    (a.length == 8) && (b.length == 4) && (c.length == 4) && (d.length == 4) &&
      (e.length == 12) && (a ++ b ++ c ++ d ++ e).all isHexLower
  | _ => false

/-! ### The manager operations

Each operation is a function from the current file contents (plus the
nondeterministic inputs `uuidv4()` and `Date.now()`) to an error-or-result
and the resulting file contents.  Every `throw` in the source happens
before the write, so error outcomes leave the file unchanged. -/

inductive TErr where
  | invalidLength : TErr
  | badSyntax : TErr
  | notFound : TErr
deriving DecidableEq, Repr

structure OpOut (α : Type) where
  res : Except TErr α
  file : Str

/-- `Math.trunc` (round toward zero). -/
def mathTrunc (q : ℚ) : Int :=
  if q < 0 then ⌈q⌉ else ⌊q⌋

/-- `JSONLTimersManager.createTimer`: reject negative length, validate the
file, then append the serialized record plus a newline. -/
def createTimerJsonl (file : Str) (length : ℚ) (id : Str) (now : Int)
    (title descr : Option Str) : OpOut Str :=
  if length < 0 then ⟨.error .invalidLength, file⟩
  else if checkTimerfileSyntaxJsonl file then
    ⟨.ok id, file ++ encodeJsonl ⟨id, now, now + mathTrunc length, title, descr⟩ ++ ['\n']⟩
  else ⟨.error .badSyntax, file⟩

/-- Decode every non-blank line of the file (as `removeTimer`, `showTimers`
and `checkTimers` do); `none` when some line is not valid JSON. -/
def decodeAllJsonl (file : Str) : Option (List JVal) :=
  ((splitCRLF file).filter (fun l => decide (trimS l ≠ []))).mapM parseJson

/-- `timerData.id === id` for a parsed line against the string argument. -/
def jidEq (v : JVal) (id : Str) : Bool :=
  match getProp v (str "id") with
  | some (.jstr s) => s == id
  | _ => false

/-- `JSONLTimersManager.removeTimer`: validate, decode, drop every line
whose `id` matches, rewrite the rest (re-serialized, one per line with a
trailing newline); `NotFound` when nothing matched. -/
def removeTimerJsonl (file : Str) (id : Str) : OpOut Unit :=
  if checkTimerfileSyntaxJsonl file then
    match decodeAllJsonl file with
    | none => ⟨.error .badSyntax, file⟩
    | some vs =>
      if vs.any (fun v => jidEq v id) then
        ⟨.ok (), joinLines ((vs.filter (fun v => !jidEq v id)).map strJVal)⟩
      else ⟨.error .notFound, file⟩
  else ⟨.error .badSyntax, file⟩

/-- `JSONLTimersManager.showTimers`: split, drop blanks, `JSON.parse` each
line with no shape check at all. -/
def showTimersJsonl (file : Str) : Except TErr (List JVal) :=
  match decodeAllJsonl file with
  | some vs => .ok vs
  | none => .error .badSyntax

/-- `PlainTextTimersManager.createTimer`. -/
def createTimerPlain (file : Str) (length : ℚ) (id : Str) (now : Int) : OpOut Str :=
  if length < 0 then ⟨.error .invalidLength, file⟩
  else if checkTimerfileSyntaxPlain file then
    ⟨.ok id, file ++ plainLine id now (now + mathTrunc length) ++ ['\n']⟩
  else ⟨.error .badSyntax, file⟩

/-- `timerData.split(" ")[0]`, the id a plain-text line is keyed by. -/
def plainFirstTok (l : Str) : Str := (splitSpace l).headD []

/-- `PlainTextTimersManager.removeTimer` in `src/src/index.ts`: kept lines
are written back verbatim, each followed by a newline. -/
def removeTimerPlain (file : Str) (id : Str) : OpOut Unit :=
  if checkTimerfileSyntaxPlain file then
    let lines := (splitCRLF file).filter (fun l => decide (trimS l ≠ []))
    if lines.any (fun l => plainFirstTok l == id) then
      ⟨.ok (), joinLines (lines.filter (fun l => !(plainFirstTok l == id)))⟩
    else ⟨.error .notFound, file⟩
  else ⟨.error .badSyntax, file⟩

/-- `PlainTextTimersManager.removeTimer` in the latest revision (`Log.ts`):
identical except that the kept lines are joined with `"\n"` as a separator,
leaving no trailing newline. -/
def removeTimerPlainLatest (file : Str) (id : Str) : OpOut Unit :=
  if checkTimerfileSyntaxPlain file then
    let lines := (splitCRLF file).filter (fun l => decide (trimS l ≠ []))
    if lines.any (fun l => plainFirstTok l == id) then
      ⟨.ok (), joinSep (lines.filter (fun l => !(plainFirstTok l == id)))⟩
    else ⟨.error .notFound, file⟩
  else ⟨.error .badSyntax, file⟩

/-- `PlainTextTimersManager.showTimers`: split on `\r?\n`, skip blank
lines, and build a record from every remaining line without validation. -/
def showTimersPlain (file : Str) : List PTimer :=
  ((splitCRLF file).filter (fun l => decide (trimS l ≠ []))).map decodePlainLine


/-! ### The expiry poller

`checkTimers` installs a recurring callback guarded by the boolean
`checkLock` field.  The scheduled body is:
`if (checkLock) return; checkLock = true; try (pass body) finally (checkLock = false)`.
The poller is modelled as a state machine whose events are the arrival of a
scheduled tick and the completion (normal or exceptional, i.e. the `catch`
path) of a running pass body; the `finally` clearing of the flag is the
state change of the completion events. -/

structure PollerState where
  lock : Bool
  running : Nat
  started : Nat
  dropped : Nat
deriving DecidableEq, Repr

inductive PollEvent where
  | tick : PollEvent
  | finishOk : PollEvent
  | finishErr : PollEvent
deriving DecidableEq, Repr

/-- One scheduler event.  A tick with the lock held returns immediately
(`if (this.checkLock) return`): the only change is that the tick is counted
as dropped — nothing is queued.  A tick with the lock free sets the lock and
begins a pass.  A completion event runs the `finally`, clearing the lock. -/
def pollStep (s : PollerState) : PollEvent → PollerState
  | .tick =>
    if s.lock then ⟨s.lock, s.running, s.started, s.dropped + 1⟩
    else ⟨true, s.running + 1, s.started + 1, s.dropped⟩
  | .finishOk =>
    if s.running = 0 then s else ⟨false, s.running - 1, s.started, s.dropped⟩
  | .finishErr =>
    if s.running = 0 then s else ⟨false, s.running - 1, s.started, s.dropped⟩

def pollInit : PollerState := ⟨false, 0, 0, 0⟩

def pollRun (evs : List PollEvent) : PollerState := evs.foldl pollStep pollInit

/-! ### One pass of the latest (streaming) `checkTimers`

Translated from `unnamed/part_007` (JSONL, latest revision): iterate over
the lines of the file as read at the start of the pass; for each non-blank
line, `JSON.parse` it, and when `Number(timerData.stop) <= now`, await
`removeTimer(timerData.id)` and then fire the callback without awaiting,
attaching a `.catch` that only logs.  A `JSON.parse` or `removeTimer` error
propagates to the pass's `catch` (the pass stops; the error is logged); a
callback rejection is swallowed by the `.catch` and only counted. -/

/-- `Number(x)` on a property value (JavaScript's number coercion, with
array/object coercion out of scope — such values do not occur in timer
files). -/
def jsNumberOfProp : Option JVal → Option Int
  | none => none
  | some .jnull => some 0
  | some (.jbool b) => some (if b then 1 else 0)
  | some (.jnum n) => some n
  | some (.jstr s) => jsNumberStr s
  | some (.jarr _) => none
  | some (.jobj _) => none

/-- `x <= now` where `x` may be `NaN` (comparisons with `NaN` are false). -/
def jsLe : Option Int → Int → Bool
  | none, _ => false
  | some a, b => decide (a ≤ b)

/-- `timerData.id` as the string passed to `removeTimer` (always a string on
the valid files the pass can complete on). -/
def jidOf (v : JVal) : Str :=
  match getProp v (str "id") with
  | some (.jstr s) => s
  | _ => []

structure PassOut where
  file : Str
  delivered : List JVal
  cbFailures : Nat
  aborted : Bool

def passJsonlGo (now : Int) (cbFails : JVal → Bool) :
    List Str → Str → List JVal → Nat → PassOut
  | [], cur, del, cf => ⟨cur, del, cf, false⟩
  | l :: rest, cur, del, cf =>
    if trimS l = [] then passJsonlGo now cbFails rest cur del cf
    else
      match parseJson l with
      | none => ⟨cur, del, cf, true⟩
      | some v =>
        if jsLe (jsNumberOfProp (getProp v (str "stop"))) now then
          match removeTimerJsonl cur (jidOf v) with
          | ⟨.error _, f⟩ => ⟨f, del, cf, true⟩
          | ⟨.ok _, f⟩ =>
            passJsonlGo now cbFails rest f (del ++ [v])
              (cf + if cbFails v then 1 else 0)
        else passJsonlGo now cbFails rest cur del cf

/-- One full pass over the snapshot of the file taken when the pass begins. -/
def checkTimersPassJsonl (file : Str) (now : Int) (cbFails : JVal → Bool) : PassOut :=
  passJsonlGo now cbFails (splitCRLF file) file [] 0

/-! ### The Map-based dedup step of the `src/src/index.ts` poller

That revision reads all records, inserts them into a `Map` keyed by
`timer.id` (`Map.set` keeps the first-insertion position but overwrites the
value), and iterates the map values. -/

def buildTimersMap (vs : List JVal) : List (Str × JVal) :=
  vs.foldl (fun m v => setAssoc m (jidOf v) v) []

/-- The last element of a list satisfying a predicate. -/
def lastWith (p : JVal → Bool) : List JVal → Option JVal
  | [] => none
  | v :: r =>
    match lastWith p r with
    | some w => some w
    | none => if p v then some v else none


/-! ### Lemmas about splitting and joining -/

/-- Inverse of `splitOnChar`: interleave the parts with the separator. -/
def sepJoin (sep : Char) : List Str → Str
  | [] => []
  | [l] => l
  | l :: ls => l ++ sep :: sepJoin sep ls

theorem splitOnChar_ne_nil (sep : Char) (l : Str) : splitOnChar sep l ≠ [] := by
  cases l with
  | nil => simp [splitOnChar]
  | cons c r =>
    rw [splitOnChar]
    rcases splitOnChar sep r with _ | ⟨p, ps⟩
    · simp
    · by_cases h : c = sep <;> simp [h]

theorem splitOnChar_no_sep {sep : Char} {l : Str} (h : sep ∉ l) :
    splitOnChar sep l = [l] := by
  induction l with
  | nil => rfl
  | cons c r ih =>
    have hr := ih (fun hm => h (List.mem_cons_of_mem c hm))
    have hc : ¬c = sep := fun he => h (he ▸ List.mem_cons_self c r)
    simp only [splitOnChar, hr, if_neg hc]

theorem splitOnChar_append_sep {sep : Char} {a : Str} (b : Str) (h : sep ∉ a) :
    splitOnChar sep (a ++ sep :: b) = a :: splitOnChar sep b := by
  induction a with
  | nil =>
    rcases hb : splitOnChar sep b with _ | ⟨p, ps⟩
    · exact absurd hb (splitOnChar_ne_nil sep b)
    · simp only [List.nil_append, splitOnChar, hb]
      rw [if_pos trivial]
  | cons c r ih =>
    have hr := ih (fun hm => h (List.mem_cons_of_mem c hm))
    have hc : ¬c = sep := fun he => h (he ▸ List.mem_cons_self c r)
    simp only [List.cons_append, splitOnChar, List.append_eq, hr, if_neg hc]

theorem splitOnChar_mem_subset {sep : Char} {s p : Str}
    (hp : p ∈ splitOnChar sep s) : ∀ c ∈ p, c ∈ s := by
  induction s generalizing p with
  | nil =>
    rw [splitOnChar] at hp
    rcases List.mem_singleton.1 hp
    simp
  | cons c r ih =>
    rcases hsp : splitOnChar sep r with _ | ⟨q, qs⟩
    · exact absurd hsp (splitOnChar_ne_nil sep r)
    · simp only [splitOnChar, hsp] at hp
      split_ifs at hp with hc
      · rcases List.mem_cons.1 hp with h1 | h1
        · subst h1
          intro d hd
          simp at hd
        · intro d hd
          exact List.mem_cons_of_mem c (ih (by rw [hsp]; exact h1) d hd)
      · rcases List.mem_cons.1 hp with h1 | h1
        · subst h1
          intro d hd
          rcases List.mem_cons.1 hd with h2 | h2
          · subst h2
            exact List.mem_cons_self d r
          · exact List.mem_cons_of_mem c (ih (by rw [hsp]; exact List.mem_cons_self q qs) d h2)
        · intro d hd
          exact List.mem_cons_of_mem c
            (ih (by rw [hsp]; exact List.mem_cons_of_mem q h1) d hd)

theorem sepJoin_splitOnChar (sep : Char) (s : Str) :
    sepJoin sep (splitOnChar sep s) = s := by
  induction s with
  | nil => rfl
  | cons c r ih =>
    rcases hsp : splitOnChar sep r with _ | ⟨q, qs⟩
    · exact absurd hsp (splitOnChar_ne_nil sep r)
    · rw [hsp] at ih
      simp only [splitOnChar, hsp]
      by_cases hc : c = sep
      · subst hc
        rw [if_pos rfl,
          show sepJoin c ([] :: q :: qs) = c :: sepJoin c (q :: qs) from rfl, ih]
      · rw [if_neg hc]
        rcases qs with _ | ⟨q2, qs2⟩
        · rw [show sepJoin sep [c :: q] = c :: q from rfl]
          rw [show sepJoin sep [q] = q from rfl] at ih
          rw [ih]
        · rw [show sepJoin sep ((c :: q) :: q2 :: qs2) =
            (c :: q) ++ sep :: sepJoin sep (q2 :: qs2) from rfl]
          rw [show sepJoin sep (q :: q2 :: qs2) = q ++ sep :: sepJoin sep (q2 :: qs2) from rfl] at ih
          rw [List.cons_append, ih]

theorem splitOnChar_mem_no_sep {sep : Char} {s p : Str}
    (hp : p ∈ splitOnChar sep s) : sep ∉ p := by
  induction s generalizing p with
  | nil =>
    rw [splitOnChar] at hp
    rcases List.mem_singleton.1 hp
    simp
  | cons c r ih =>
    rcases hsp : splitOnChar sep r with _ | ⟨q, qs⟩
    · exact absurd hsp (splitOnChar_ne_nil sep r)
    · simp only [splitOnChar, hsp] at hp
      split_ifs at hp with hc
      · rcases List.mem_cons.1 hp with h1 | h1
        · subst h1
          simp
        · exact ih (by rw [hsp]; exact h1)
      · rcases List.mem_cons.1 hp with h1 | h1
        · subst h1
          intro hm
          rcases List.mem_cons.1 hm with h2 | h2
          · exact hc h2.symm
          · exact ih (by rw [hsp]; exact List.mem_cons_self q qs) h2
        · exact ih (by rw [hsp]; exact List.mem_cons_of_mem q h1)

/-! ### Trimming lemmas -/

theorem dropWhile_head_false (p : Char → Bool) (l : Str) :
    ∀ c, (l.dropWhile p).head? = some c → p c = false := by
  induction l with
  | nil => intro c hc; simp at hc
  | cons a r ih =>
    intro c hc
    rw [List.dropWhile_cons] at hc
    by_cases hp : p a
    · rw [if_pos hp] at hc
      exact ih c hc
    · rw [if_neg hp] at hc
      simp only [List.head?_cons, Option.some.injEq] at hc
      subst hc
      exact Bool.eq_false_iff.2 hp

theorem dropWhile_is_suffix (p : Char → Bool) (l : Str) :
    ∃ t, l = t ++ l.dropWhile p := by
  induction l with
  | nil => exact ⟨[], rfl⟩
  | cons a r ih =>
    rw [List.dropWhile_cons]
    by_cases hp : p a
    · obtain ⟨t, ht⟩ := ih
      rw [if_pos hp]
      exact ⟨a :: t, by rw [List.cons_append, ← ht]⟩
    · rw [if_neg hp]
      exact ⟨[], rfl⟩

theorem trimS_getLast_not_ws (l : Str) :
    ∀ c, (trimS l).getLast? = some c → isWs c = false := by
  intro c hc
  unfold trimS at hc
  rw [List.getLast?_reverse] at hc
  exact dropWhile_head_false isWs _ c hc

theorem trimS_head_not_ws (l : Str) :
    ∀ c, (trimS l).head? = some c → isWs c = false := by
  intro c hc
  unfold trimS at hc
  rw [List.head?_reverse] at hc
  obtain ⟨t, ht⟩ := dropWhile_is_suffix isWs (l.dropWhile isWs).reverse
  have hne : (l.dropWhile isWs).reverse.dropWhile isWs ≠ [] := by
    intro h0
    rw [h0] at hc
    simp at hc
  have hlast : ((l.dropWhile isWs).reverse).getLast? = some c := by
    rw [ht, List.getLast?_append_of_ne_nil _ hne]
    exact hc
  rw [List.getLast?_reverse] at hlast
  exact dropWhile_head_false isWs l c hlast

theorem trimS_idem (l : Str) : trimS (trimS l) = trimS l :=
  trimS_eq_of (trimS_head_not_ws l) (trimS_getLast_not_ws l)

theorem parseJson_congr {a b : Str} (h : trimS a = trimS b) : parseJson a = parseJson b := by
  unfold parseJson
  rw [h]

theorem parseJson_trim (l : Str) : parseJson (trimS l) = parseJson l :=
  parseJson_congr (trimS_idem l)

/-! ### Serialized lines contain no newline -/

theorem hexDig_ne_nl {k : Nat} (h : k < 16) : hexDig k ≠ '\n' := by
  interval_cases k <;> decide

theorem escChar_no_nl (c : Char) : '\n' ∉ escChar c := by
  unfold escChar
  split_ifs with h1 h2 h3 h4 h5 h6 h7 h8
  · decide
  · decide
  · decide
  · decide
  · decide
  · decide
  · decide
  · intro hm
    simp only [List.mem_cons, List.mem_singleton, List.not_mem_nil, or_false] at hm
    rcases hm with h | h | h | h | h | h
    · exact absurd h (by decide)
    · exact absurd h (by decide)
    · exact absurd h (by decide)
    · exact absurd h (by decide)
    · exact absurd h.symm (hexDig_ne_nl (by omega))
    · exact absurd h.symm (hexDig_ne_nl (Nat.mod_lt _ (by omega)))
  · intro hm
    rw [List.mem_singleton] at hm
    rw [← hm] at h8
    exact h8 (by decide)

theorem escStr_no_nl (s : Str) : '\n' ∉ escStr s := by
  induction s with
  | nil => simp [escStr]
  | cons c r ih =>
    intro hm
    rw [show escStr (c :: r) = escChar c ++ escStr r from rfl] at hm
    rcases List.mem_append.1 hm with h | h
    · exact escChar_no_nl c h
    · exact ih h

theorem quoteStr_no_nl (s : Str) : '\n' ∉ quoteStr s := by
  intro hm
  rw [quoteStr] at hm
  rcases List.mem_cons.1 hm with h | h
  · exact absurd h (by decide)
  · rcases List.mem_append.1 h with h2 | h2
    · exact escStr_no_nl s h2
    · rw [List.mem_singleton] at h2
      exact absurd h2 (by decide)

theorem intToStr_no_nl (i : Int) : '\n' ∉ intToStr i := by
  intro hm
  rcases intToStr_chars i _ hm with h | h
  · exact absurd h (by decide)
  · exact absurd h (by decide)

theorem strJVal_no_nl_aux : ∀ n : Nat,
    (∀ v, jsize v ≤ n → '\n' ∉ strJVal v) ∧
    (∀ fs, fsize fs ≤ n → '\n' ∉ strJFields fs) ∧
    (∀ xs, isize xs ≤ n → '\n' ∉ strJItems xs) := by
  intro n
  induction n with
  | zero =>
    refine ⟨?_, ?_, ?_⟩
    · intro v hv
      exact absurd hv (by have := jsize_pos v; omega)
    · intro fs hfs
      rcases fs with _ | ⟨⟨k, v⟩, fs⟩
      · simp [strJFields]
      · rw [fsize] at hfs
        omega
    · intro xs hxs
      rcases xs with _ | ⟨x, xs⟩
      · simp [strJItems]
      · rw [isize] at hxs
        omega
  | succ n ih =>
    obtain ⟨ihv, ihf, ihi⟩ := ih
    refine ⟨?_, ?_, ?_⟩
    · intro v hv
      cases v with
      | jnull => decide
      | jbool b => cases b <;> decide
      | jnum m => exact intToStr_no_nl m
      | jstr s => exact quoteStr_no_nl s
      | jarr xs =>
        intro hm
        rw [show strJVal (.jarr xs) = '[' :: strJItems xs ++ [']'] from rfl] at hm
        rcases List.mem_cons.1 hm with h | h
        · exact absurd h (by decide)
        · rcases List.mem_append.1 h with h2 | h2
          · rw [show jsize (.jarr xs) = 1 + isize xs from rfl] at hv
            exact ihi xs (by omega) h2
          · rw [List.mem_singleton] at h2
            exact absurd h2 (by decide)
      | jobj fs =>
        intro hm
        rw [show strJVal (.jobj fs) = lbrace :: strJFields fs ++ [rbrace] from rfl] at hm
        rcases List.mem_cons.1 hm with h | h
        · exact absurd h (by decide)
        · rcases List.mem_append.1 h with h2 | h2
          · rw [show jsize (.jobj fs) = 1 + fsize fs from rfl] at hv
            exact ihf fs (by omega) h2
          · rw [List.mem_singleton] at h2
            exact absurd h2 (by decide)
    · intro fs hfs
      rcases fs with _ | ⟨⟨k, v⟩, fs⟩
      · simp [strJFields]
      · rw [fsize] at hfs
        rcases fs with _ | ⟨f, fr⟩
        · intro hm
          rw [show strJFields [(k, v)] = quoteStr k ++ ':' :: strJVal v from rfl] at hm
          rcases List.mem_append.1 hm with h | h
          · exact quoteStr_no_nl k h
          · rcases List.mem_cons.1 h with h2 | h2
            · exact absurd h2 (by decide)
            · exact ihv v (by omega) h2
        · intro hm
          rw [show strJFields ((k, v) :: f :: fr) =
            quoteStr k ++ ':' :: strJVal v ++ ',' :: strJFields (f :: fr) from rfl] at hm
          rcases List.mem_append.1 hm with h | h
          · rcases List.mem_append.1 h with h1 | h1
            · exact quoteStr_no_nl k h1
            · rcases List.mem_cons.1 h1 with h2 | h2
              · exact absurd h2 (by decide)
              · exact ihv v (by omega) h2
          · rcases List.mem_cons.1 h with h2 | h2
            · exact absurd h2 (by decide)
            · exact ihf (f :: fr) (by omega) h2
    · intro xs hxs
      rcases xs with _ | ⟨x, xs⟩
      · simp [strJItems]
      · rw [isize] at hxs
        rcases xs with _ | ⟨y, ys⟩
        · intro hm
          rw [show strJItems [x] = strJVal x from rfl] at hm
          exact ihv x (by omega) hm
        · intro hm
          rw [show strJItems (x :: y :: ys) =
            strJVal x ++ ',' :: strJItems (y :: ys) from rfl] at hm
          rcases List.mem_append.1 hm with h | h
          · exact ihv x (by omega) h
          · rcases List.mem_cons.1 h with h2 | h2
            · exact absurd h2 (by decide)
            · exact ihi (y :: ys) (by omega) h2

theorem strJVal_no_nl (v : JVal) : '\n' ∉ strJVal v :=
  (strJVal_no_nl_aux (jsize v)).1 v (Nat.le_refl _)


/-! ### Files made of serialized lines -/

/-- The non-blank lines a reading operation iterates over. -/
def crlfNonBlank (file : Str) : List Str :=
  (splitCRLF file).filter (fun l => decide (trimS l ≠ []))

theorem all_congr_list {α : Type} {l : List α} {p q : α → Bool}
    (h : ∀ a ∈ l, p a = q a) : l.all p = l.all q := by
  induction l with
  | nil => rfl
  | cons a r ih =>
    rw [List.all_cons, List.all_cons, h a (List.mem_cons_self a r),
      ih (fun b hb => h b (List.mem_cons_of_mem a hb))]

theorem stripCr_eq_self {l : Str} (h : ∀ c, l.getLast? = some c → c ≠ '\r') :
    stripCr l = l := by
  unfold stripCr
  split_ifs with hl
  · exact absurd rfl (h '\r' hl)
  · rfl

theorem joinLines_cons (l : Str) (ls : List Str) :
    joinLines (l :: ls) = l ++ '\n' :: joinLines ls := rfl

theorem splitNl_joinLines {ls : List Str} (h : ∀ l ∈ ls, '\n' ∉ l) :
    splitNl (joinLines ls) = ls ++ [[]] := by
  induction ls with
  | nil => rfl
  | cons l ls ih =>
    rw [joinLines_cons, splitNl, splitOnChar_append_sep _ (h l (List.mem_cons_self l ls))]
    rw [show splitOnChar '\n' (joinLines ls) = splitNl (joinLines ls) from rfl,
      ih (fun x hx => h x (List.mem_cons_of_mem l hx))]
    rfl

theorem crlfNonBlank_joinLines {ls : List Str} (h1 : ∀ l ∈ ls, '\n' ∉ l)
    (h2 : ∀ l ∈ ls, stripCr l = l) (h3 : ∀ l ∈ ls, trimS l ≠ []) :
    crlfNonBlank (joinLines ls) = ls := by
  induction ls with
  | nil => rfl
  | cons l ls ih =>
    have hmem := List.mem_cons_self l ls
    have e1 : splitNl (joinLines (l :: ls)) = l :: splitNl (joinLines ls) := by
      show splitOnChar '\n' (joinLines (l :: ls)) = l :: splitOnChar '\n' (joinLines ls)
      rw [joinLines_cons, splitOnChar_append_sep _ (h1 l hmem)]
    have ih2 := ih (fun x hx => h1 x (List.mem_cons_of_mem l hx))
      (fun x hx => h2 x (List.mem_cons_of_mem l hx))
      (fun x hx => h3 x (List.mem_cons_of_mem l hx))
    unfold crlfNonBlank splitCRLF at ih2 ⊢
    rw [e1, List.map_cons, h2 l hmem, List.filter_cons,
      if_pos (decide_eq_true (h3 l hmem)), ih2]

theorem strJVal_stripCr (v : JVal) : stripCr (strJVal v) = strJVal v := by
  refine stripCr_eq_self (fun c hc => ?_)
  intro he
  subst he
  exact absurd (strJVal_getLast_not_ws v _ hc) (by decide)

theorem strJVal_trim_ne_nil (v : JVal) : trimS (strJVal v) ≠ [] := by
  rw [trimS_strJVal]
  obtain ⟨c, cs, hc, -⟩ := strJVal_cons v
  rw [hc]
  simp

theorem crlfNonBlank_strJVal (vs : List JVal) :
    crlfNonBlank (joinLines (vs.map strJVal)) = vs.map strJVal := by
  refine crlfNonBlank_joinLines ?_ ?_ ?_ <;> intro l hl <;>
    obtain ⟨v, -, rfl⟩ := List.mem_map.1 hl
  · exact strJVal_no_nl v
  · exact strJVal_stripCr v
  · exact strJVal_trim_ne_nil v

theorem checkFileJsonl_joinLines (vs : List JVal) :
    checkTimerfileSyntaxJsonl (joinLines (vs.map strJVal)) =
      vs.all (fun v => validJsonlLine (strJVal v)) := by
  induction vs with
  | nil => rfl
  | cons v vs ih =>
    have e1 : splitNl (joinLines ((v :: vs).map strJVal)) =
        strJVal v :: splitNl (joinLines (vs.map strJVal)) := by
      show splitOnChar '\n' (joinLines (strJVal v :: vs.map strJVal)) =
        strJVal v :: splitOnChar '\n' (joinLines (vs.map strJVal))
      rw [joinLines_cons, splitOnChar_append_sep _ (strJVal_no_nl v)]
    unfold checkTimerfileSyntaxJsonl at ih ⊢
    rw [e1, List.map_cons, trimS_strJVal v, List.filter_cons,
      if_pos (decide_eq_true (by
        obtain ⟨c, cs, hc, -⟩ := strJVal_cons v
        rw [hc]
        simp)), List.all_cons, ih, List.all_cons]

theorem mapM_parseJson_strJVal {vs : List JVal} (hwf : ∀ v ∈ vs, wfJ v = true) :
    (vs.map strJVal).mapM parseJson = some vs := by
  induction vs with
  | nil => rfl
  | cons v r ih =>
    rw [List.map_cons, List.mapM_cons, parseJson_strJVal (hwf v (List.mem_cons_self v r)),
      ih (fun x hx => hwf x (List.mem_cons_of_mem v hx))]
    rfl

theorem decodeAllJsonl_joinLines {vs : List JVal} (hwf : ∀ v ∈ vs, wfJ v = true) :
    decodeAllJsonl (joinLines (vs.map strJVal)) = some vs := by
  show (crlfNonBlank (joinLines (vs.map strJVal))).mapM parseJson = some vs
  rw [crlfNonBlank_strJVal, mapM_parseJson_strJVal hwf]

theorem validJsonl_strJVal {v : JVal} (hwf : wfJ v = true) :
    validJsonlLine (strJVal v) = jsonShapeOk v := by
  unfold validJsonlLine
  rw [parseJson_strJVal hwf]

/-- `removeTimer` (JSONL) on a file of serialized well-formed, shape-valid
records: success exactly when some record's id matches, and then the file is
rewritten with the matching records removed. -/
theorem removeTimerJsonl_serialized {vs : List JVal} {id : Str}
    (hwf : ∀ v ∈ vs, wfJ v = true) (hok : ∀ v ∈ vs, jsonShapeOk v = true) :
    removeTimerJsonl (joinLines (vs.map strJVal)) id =
      if vs.any (fun v => jidEq v id) then
        ⟨.ok (), joinLines ((vs.filter (fun v => !jidEq v id)).map strJVal)⟩
      else ⟨.error .notFound, joinLines (vs.map strJVal)⟩ := by
  unfold removeTimerJsonl
  rw [checkFileJsonl_joinLines]
  rw [List.all_eq_true.2 (fun v hv => by
    rw [validJsonl_strJVal (hwf v hv)]
    exact hok v hv)]
  rw [if_pos rfl]
  simp only [decodeAllJsonl_joinLines hwf]


/-! ### Reading back arbitrary valid files -/

theorem splitCRLF_no_cr {file : Str} (h : '\r' ∉ file) : splitCRLF file = splitNl file := by
  unfold splitCRLF
  rw [List.map_congr_left (fun p hp => stripCr_eq_self (fun c hc he => by
    subst he
    exact h (splitOnChar_mem_subset hp _ (mem_of_getLast hc))))]
  exact List.map_id _

theorem validJsonlLine_trim2 (l : Str) : validJsonlLine (trimS l) = validJsonlLine l := by
  unfold validJsonlLine
  rw [parseJson_trim]

theorem checkFileJsonl_eq_all {file : Str} (hcr : '\r' ∉ file) :
    checkTimerfileSyntaxJsonl file = (crlfNonBlank file).all validJsonlLine := by
  unfold checkTimerfileSyntaxJsonl crlfNonBlank
  rw [splitCRLF_no_cr hcr, List.filter_map, List.all_map]
  exact all_congr_list (fun l _ => validJsonlLine_trim2 l)

theorem validJsonlLine_eq_parse {l : Str} :
    validJsonlLine l = true ↔ ∃ v, parseJson l = some v ∧ jsonShapeOk v = true := by
  unfold validJsonlLine
  rcases hp : parseJson l with _ | v
  · simp
  · simp

theorem mapM_parseJson_of_valid : ∀ ls : List Str, (∀ l ∈ ls, validJsonlLine l = true) →
    ∃ vs, ls.mapM parseJson = some vs ∧ ∀ v ∈ vs, wfJ v = true ∧ jsonShapeOk v = true := by
  intro ls
  induction ls with
  | nil => exact fun _ => ⟨[], rfl, by simp⟩
  | cons l ls ih =>
    intro hls
    obtain ⟨v, hv, hsh⟩ := validJsonlLine_eq_parse.1 (hls l (List.mem_cons_self l ls))
    obtain ⟨vs, hvs, hprop⟩ := ih (fun x hx => hls x (List.mem_cons_of_mem l hx))
    refine ⟨v :: vs, ?_, ?_⟩
    · rw [List.mapM_cons, hv, hvs]
      rfl
    · intro w hw
      rcases List.mem_cons.1 hw with h1 | h1
      · subst h1
        exact ⟨parseJson_wf hv, hsh⟩
      · exact hprop w h1

theorem decodeAllJsonl_of_check {file : Str} (hcr : '\r' ∉ file)
    (hchk : checkTimerfileSyntaxJsonl file = true) :
    ∃ vs, decodeAllJsonl file = some vs ∧ ∀ v ∈ vs, wfJ v = true ∧ jsonShapeOk v = true := by
  rw [checkFileJsonl_eq_all hcr] at hchk
  exact mapM_parseJson_of_valid (crlfNonBlank file) (fun l hl => List.all_eq_true.1 hchk l hl)

/-- Behaviour of the JSONL `removeTimer` on an arbitrary valid file, in terms
of its decoded records. -/
theorem removeTimerJsonl_spec {file id : Str} (hcr : '\r' ∉ file)
    (hchk : checkTimerfileSyntaxJsonl file = true) :
    ∃ vs, decodeAllJsonl file = some vs ∧
      (∀ v ∈ vs, wfJ v = true ∧ jsonShapeOk v = true) ∧
      removeTimerJsonl file id =
        (if vs.any (fun v => jidEq v id) then
          ⟨.ok (), joinLines ((vs.filter (fun v => !jidEq v id)).map strJVal)⟩
        else ⟨.error .notFound, file⟩) := by
  obtain ⟨vs, hvs, hprop⟩ := decodeAllJsonl_of_check hcr hchk
  refine ⟨vs, hvs, hprop, ?_⟩
  unfold removeTimerJsonl
  rw [if_pos hchk]
  simp only [hvs]

/-! ### UUID facts -/

theorem isUuid_parts {s : Str} (h : isUuid s = true) :
    ∃ a b c d e, s = a ++ '-' :: (b ++ '-' :: (c ++ '-' :: (d ++ '-' :: e))) ∧
      a.length = 8 ∧ b.length = 4 ∧ c.length = 4 ∧ d.length = 4 ∧ e.length = 12 ∧
      (a ++ b ++ c ++ d ++ e).all isHexLower = true := by
  unfold isUuid at h
  rcases hsp : splitOnChar '-' s with _ | ⟨a, _ | ⟨b, _ | ⟨c, _ | ⟨d, _ | ⟨e, _ | ⟨f, rest⟩⟩⟩⟩⟩⟩ <;>
      rw [hsp] at h <;>
      first
      | exact Bool.noConfusion h
      | skip
  simp only [Bool.and_eq_true, beq_iff_eq] at h
  refine ⟨a, b, c, d, e, ?_, h.1.1.1.1.1, h.1.1.1.1.2, h.1.1.1.2, h.1.1.2, h.1.2, h.2⟩
  have hj := sepJoin_splitOnChar '-' s
  rw [hsp] at hj
  rw [← hj]
  rfl

theorem isUuid_length {s : Str} (h : isUuid s = true) : s.length = 36 := by
  obtain ⟨a, b, c, d, e, hs, ha, hb, hc, hd, he, -⟩ := isUuid_parts h
  subst hs
  simp [List.length_append]
  omega

theorem isUuid_chars {s : Str} (h : isUuid s = true) :
    ∀ c ∈ s, isHexLower c = true ∨ c = '-' := by
  obtain ⟨a, b, c, d, e, hs, -, -, -, -, -, hhex⟩ := isUuid_parts h
  have hx := List.all_eq_true.1 hhex
  subst hs
  intro x hx2
  simp only [List.mem_append, List.mem_cons] at hx2
  rcases hx2 with h1 | h1 | h1 | h1 | h1 | h1 | h1 | h1 | h1
  · exact Or.inl (hx x (by simp [h1]))
  · exact Or.inr h1
  · exact Or.inl (hx x (by simp [h1]))
  · exact Or.inr h1
  · exact Or.inl (hx x (by simp [h1]))
  · exact Or.inr h1
  · exact Or.inl (hx x (by simp [h1]))
  · exact Or.inr h1
  · exact Or.inl (hx x (by simp [h1]))

theorem uuid_char_not_space {c : Char} (h : isHexLower c = true ∨ c = '-') : c ≠ ' ' := by
  rcases h with h | h
  · rintro rfl
    exact absurd h (by decide)
  · subst h
    decide

theorem isUuid_no_space {s : Str} (h : isUuid s = true) : ' ' ∉ s := by
  intro hm
  exact uuid_char_not_space (isUuid_chars h ' ' hm) rfl

/-! ### Codec round-trip facts -/

theorem trimS_intToStr (i : Int) : trimS (intToStr i) = intToStr i :=
  trimS_eq_self (fun c hc => by
    rcases intToStr_chars i c hc with h | h
    · exact isDigit_not_ws h
    · subst h
      exact dash_not_ws)

theorem intToStr_no_space (i : Int) : ' ' ∉ intToStr i := by
  intro hm
  rcases intToStr_chars i _ hm with h | h
  · exact absurd h (by decide)
  · exact absurd h (by decide)

theorem splitSpace_plainLine (id : Str) (a b : Int) (hid : ' ' ∉ id) :
    splitSpace (plainLine id a b) = [id, intToStr a, intToStr b] := by
  unfold plainLine splitSpace
  rw [List.append_assoc, List.cons_append, splitOnChar_append_sep _ hid,
    splitOnChar_append_sep _ (intToStr_no_space a),
    splitOnChar_no_sep (intToStr_no_space b)]

theorem decodePlainLine_plainLine {id : Str} (a b : Int) (hid : ' ' ∉ id) :
    decodePlainLine (plainLine id a b) = ⟨id, some a, some b⟩ := by
  unfold decodePlainLine
  rw [splitSpace_plainLine id a b hid]
  show PTimer.mk id (jsNumOfOpt (some (intToStr a))) (jsNumOfOpt (some (intToStr b))) =
    PTimer.mk id (some a) (some b)
  rw [show jsNumOfOpt (some (intToStr a)) = jsNumberStr (intToStr a) from rfl,
    show jsNumOfOpt (some (intToStr b)) = jsNumberStr (intToStr b) from rfl,
    jsNumberStr_intToStr, jsNumberStr_intToStr]

theorem wfJ_jvalOfTimer (r : TimerRec) : wfJ (jvalOfTimer r) = true := by
  rcases r with ⟨i, st, sp, t, d⟩
  rcases t with _ | t <;> rcases d with _ | d <;> rfl

theorem timerRecOfJVal_jvalOfTimer (r : TimerRec) :
    timerRecOfJVal (jvalOfTimer r) = some r := by
  rcases r with ⟨i, st, sp, t, d⟩
  rcases t with _ | t <;> rcases d with _ | d <;> rfl

/-- The JSONL record codec round-trips through `JSON.stringify` and
`JSON.parse`. -/
theorem decodeJsonl_encodeJsonl (r : TimerRec) : decodeJsonl (encodeJsonl r) = some r := by
  unfold decodeJsonl encodeJsonl
  rw [parseJson_strJVal (wfJ_jvalOfTimer r)]
  exact timerRecOfJVal_jvalOfTimer r


/-! ### The shape checks on records built by `createTimer` -/

theorem intToStr_ne_nil (i : Int) : intToStr i ≠ [] := by
  unfold intToStr
  split_ifs
  · simp
  · exact natToStr_ne_nil _

theorem intToStr_not_ws (i : Int) : ∀ c ∈ intToStr i, isWs c = false := by
  intro c hc
  rcases intToStr_chars i c hc with h | h
  · exact isDigit_not_ws h
  · subst h
    exact dash_not_ws

theorem numToStrTrimEmpty_num (n : Int) : numToStrTrimEmpty (some (.jnum n)) = false := by
  show decide (trimS (intToStr n) = []) = false
  rw [trimS_intToStr]
  exact decide_eq_false (intToStr_ne_nil n)

theorem getProp_timer_id (r : TimerRec) :
    getProp (jvalOfTimer r) (str "id") = some (.jstr r.id) := by
  rcases r with ⟨i, st, sp, t, d⟩
  rcases t with _ | t <;> rcases d with _ | d <;> rfl

theorem getProp_timer_start (r : TimerRec) :
    getProp (jvalOfTimer r) (str "start") = some (.jnum r.start) := by
  rcases r with ⟨i, st, sp, t, d⟩
  rcases t with _ | t <;> rcases d with _ | d <;> rfl

theorem getProp_timer_stop (r : TimerRec) :
    getProp (jvalOfTimer r) (str "stop") = some (.jnum r.stop) := by
  rcases r with ⟨i, st, sp, t, d⟩
  rcases t with _ | t <;> rcases d with _ | d <;> rfl

theorem getProp_timer_title (r : TimerRec) :
    getProp (jvalOfTimer r) (str "title") = r.title.map .jstr := by
  rcases r with ⟨i, st, sp, t, d⟩
  rcases t with _ | t <;> rcases d with _ | d <;> rfl

theorem getProp_timer_descr (r : TimerRec) :
    getProp (jvalOfTimer r) (str "description") = r.description.map .jstr := by
  rcases r with ⟨i, st, sp, t, d⟩
  rcases t with _ | t <;> rcases d with _ | d <;> rfl

/-- On a record object built by `createTimer` with a 36-character id, the
syntax check reduces to the truthiness of `start` and `stop`. -/
theorem jsonShapeOk_jvalOfTimer (r : TimerRec) (h36 : r.id.length = 36) :
    jsonShapeOk (jvalOfTimer r) = (decide (r.start ≠ 0) && decide (r.stop ≠ 0)) := by
  have hid : r.id ≠ [] := by
    intro h
    rw [h] at h36
    exact absurd h36 (by decide)
  unfold jsonShapeOk
  rw [getProp_timer_id, getProp_timer_start, getProp_timer_stop,
    getProp_timer_title, getProp_timer_descr, numToStrTrimEmpty_num, numToStrTrimEmpty_num]
  rcases r.title with _ | t <;> rcases r.description with _ | d <;>
    simp [truthy, isStringProp, isNumberProp, propStrLength, h36, hid]

theorem validJsonl_encodeJsonl (r : TimerRec) (h36 : r.id.length = 36) :
    validJsonlLine (encodeJsonl r) = (decide (r.start ≠ 0) && decide (r.stop ≠ 0)) := by
  unfold encodeJsonl
  rw [validJsonl_strJVal (wfJ_jvalOfTimer r), jsonShapeOk_jvalOfTimer r h36]

/-! ### `split(/\s+/)` on lines made of whitespace-free tokens -/

theorem splitWsA_no_ws : ∀ l acc : Str, (∀ c ∈ l, isWs c = false) →
    splitWsA l acc false = [acc.reverse ++ l] := by
  intro l
  induction l with
  | nil => intro acc _; simp [splitWsA]
  | cons c rest ih =>
    intro acc h
    rw [splitWsA, if_neg (by simp), if_neg (by simp [h c (List.mem_cons_self c rest)]),
      ih (c :: acc) (fun x hx => h x (List.mem_cons_of_mem c hx))]
    simp

theorem splitWsA_true_head {c : Char} {rest : Str} (h : isWs c = false) :
    splitWsA (c :: rest) [] true = splitWsA (c :: rest) [] false := by
  rw [splitWsA, splitWsA]
  simp [h]

theorem splitWsA_token {a : Str} (b : Str) (acc : Str)
    (ha : ∀ c ∈ a, isWs c = false) :
    splitWsA (a ++ ' ' :: b) acc false = (acc.reverse ++ a) :: splitWsA b [] true := by
  induction a generalizing acc with
  | nil =>
    rw [List.nil_append, splitWsA, if_neg (by simp), if_pos (by decide)]
    simp
  | cons c rest ih =>
    rw [List.cons_append, splitWsA, if_neg (by simp),
      if_neg (by simp [ha c (List.mem_cons_self c rest)]),
      ih (c :: acc) (fun x hx => ha x (List.mem_cons_of_mem c hx))]
    simp

/-- `split(/\s+/)` of tokens joined by single spaces recovers the tokens, when
every token is nonempty and free of whitespace. -/
theorem splitWs_sepJoin : ∀ toks : List Str, toks ≠ [] →
    (∀ t ∈ toks, t ≠ []) → (∀ t ∈ toks, ∀ c ∈ t, isWs c = false) →
    splitWs (sepJoin ' ' toks) = toks := by
  intro toks
  induction toks with
  | nil => intro h; exact absurd rfl h
  | cons t r ih =>
    intro _ hne hws
    rcases r with _ | ⟨u, r⟩
    · show splitWsA (sepJoin ' ' [t]) [] false = [t]
      rw [show sepJoin ' ' [t] = t from rfl,
        splitWsA_no_ws t [] (hws t (List.mem_cons_self t []))]
      rfl
    · show splitWsA (sepJoin ' ' (t :: u :: r)) [] false = t :: u :: r
      rw [show sepJoin ' ' (t :: u :: r) = t ++ ' ' :: sepJoin ' ' (u :: r) from rfl,
        splitWsA_token _ [] (hws t (List.mem_cons_self t _))]
      have hu : u ≠ [] := hne u (List.mem_cons_of_mem t (List.mem_cons_self u r))
      obtain ⟨c, cs, hu2⟩ := List.exists_cons_of_ne_nil hu
      have hc : isWs c = false := by
        refine hws u (List.mem_cons_of_mem t (List.mem_cons_self u r)) c ?_
        rw [hu2]
        exact List.mem_cons_self c cs
      have hstep : splitWsA (sepJoin ' ' (u :: r)) [] true =
          splitWsA (sepJoin ' ' (u :: r)) [] false := by
        rcases r with _ | ⟨w, r⟩
        · rw [show sepJoin ' ' [u] = u from rfl, hu2]
          exact splitWsA_true_head hc
        · rw [show sepJoin ' ' (u :: w :: r) = u ++ ' ' :: sepJoin ' ' (w :: r) from rfl, hu2,
            List.cons_append]
          exact splitWsA_true_head hc
      rw [hstep,
        show splitWsA (sepJoin ' ' (u :: r)) [] false = splitWs (sepJoin ' ' (u :: r)) from rfl,
        ih (by simp) (fun x hx => hne x (List.mem_cons_of_mem t hx))
          (fun x hx => hws x (List.mem_cons_of_mem t hx))]
      rfl


theorem splitWs_three {a b c : Str} (ha : ∀ x ∈ a, isWs x = false)
    (hb : ∀ x ∈ b, isWs x = false) (hc : ∀ x ∈ c, isWs x = false)
    (hane : a ≠ []) (hbne : b ≠ []) (hcne : c ≠ []) :
    splitWs (a ++ ' ' :: (b ++ ' ' :: c)) = [a, b, c] := by
  have h := splitWs_sepJoin [a, b, c] (by simp)
    (by
      intro t ht
      simp only [List.mem_cons] at ht
      rcases ht with rfl | rfl | rfl | ht
      · exact hane
      · exact hbne
      · exact hcne
      · cases ht)
    (by
      intro t ht
      simp only [List.mem_cons] at ht
      rcases ht with rfl | rfl | rfl | ht
      · exact ha
      · exact hb
      · exact hc
      · cases ht)
  rwa [show sepJoin ' ' [a, b, c] = a ++ ' ' :: (b ++ ' ' :: c) from rfl] at h

theorem validPlainLine_parts {a b c : Str} (ha : ∀ x ∈ a, isWs x = false)
    (hb : ∀ x ∈ b, isWs x = false) (hc : ∀ x ∈ c, isWs x = false)
    (h36 : a.length = 36) (hbne : b ≠ []) (hcne : c ≠ []) :
    validPlainLine (a ++ ' ' :: (b ++ ' ' :: c)) = true := by
  have hane : a ≠ [] := by
    intro h
    rw [h] at h36
    exact absurd h36 (by decide)
  unfold validPlainLine
  simp only [splitWs_three ha hb hc hane hbne hcne]
  rw [trimS_eq_self hb, trimS_eq_self hc]
  simp [h36, hbne, hcne]

theorem plainLine_eq (id : Str) (st sp : Int) :
    plainLine id st sp = id ++ ' ' :: (intToStr st ++ ' ' :: intToStr sp) := by
  unfold plainLine
  rw [List.append_assoc, List.cons_append]

/-- Every line written by the plain-text `createTimer` passes the plain-text
syntax check. -/
theorem validPlainLine_plainLine {id : Str} (hws : ∀ x ∈ id, isWs x = false)
    (h36 : id.length = 36) (st sp : Int) :
    validPlainLine (plainLine id st sp) = true := by
  rw [plainLine_eq]
  exact validPlainLine_parts hws (intToStr_not_ws st) (intToStr_not_ws sp) h36
    (intToStr_ne_nil st) (intToStr_ne_nil sp)

theorem plainLine_no_nl {id : Str} (hws : ∀ x ∈ id, isWs x = false) (st sp : Int) :
    '\n' ∉ plainLine id st sp := by
  intro h
  unfold plainLine at h
  simp only [List.mem_append, List.mem_cons] at h
  rcases h with (h | h | h) | h | h
  · exact absurd (hws _ h) (by decide)
  · exact absurd h (by decide)
  · exact absurd (intToStr_not_ws st _ h) (by decide)
  · exact absurd h (by decide)
  · exact absurd (intToStr_not_ws sp _ h) (by decide)

theorem trimS_plainLine {id : Str} (hws : ∀ x ∈ id, isWs x = false) (hne : id ≠ [])
    (st sp : Int) : trimS (plainLine id st sp) = plainLine id st sp := by
  obtain ⟨x, xs, hx⟩ := List.exists_cons_of_ne_nil hne
  refine trimS_eq_of (fun c hc => ?_) (fun c hc => ?_)
  · rw [show plainLine id st sp =
        (id ++ ' ' :: intToStr st) ++ ' ' :: intToStr sp from rfl, hx] at hc
    rw [show ((x :: xs ++ ' ' :: intToStr st) ++ ' ' :: intToStr sp : Str) =
        x :: ((xs ++ ' ' :: intToStr st) ++ ' ' :: intToStr sp) from rfl,
      List.head?_cons] at hc
    cases hc
    refine hws x ?_
    rw [hx]
    exact List.mem_cons_self x xs
  · rw [show plainLine id st sp =
        (id ++ ' ' :: intToStr st) ++ ' ' :: intToStr sp from rfl,
      List.getLast?_append_of_ne_nil _ (by simp),
      show (' ' :: intToStr sp : Str) = [' '] ++ intToStr sp from rfl,
      List.getLast?_append_of_ne_nil _ (intToStr_ne_nil sp)] at hc
    exact intToStr_not_ws sp c (mem_of_getLast hc)

theorem stripCr_plainLine (id : Str) (st sp : Int) :
    stripCr (plainLine id st sp) = plainLine id st sp := by
  refine stripCr_eq_self (fun c hc => ?_)
  rw [show plainLine id st sp =
      (id ++ ' ' :: intToStr st) ++ ' ' :: intToStr sp from rfl,
    List.getLast?_append_of_ne_nil _ (by simp),
    show (' ' :: intToStr sp : Str) = [' '] ++ intToStr sp from rfl,
    List.getLast?_append_of_ne_nil _ (intToStr_ne_nil sp)] at hc
  intro he
  subst he
  exact absurd (intToStr_not_ws sp _ (mem_of_getLast hc)) (by decide)

theorem plainFirstTok_plainLine (id : Str) (st sp : Int) (hid : ' ' ∉ id) :
    plainFirstTok (plainLine id st sp) = id := by
  unfold plainFirstTok
  rw [splitSpace_plainLine id st sp hid]
  rfl

/-- The plain-text whole-file syntax check over a newline-terminated list of
trimmed non-blank lines. -/
theorem checkFilePlain_joinLines {ls : List Str} (h1 : ∀ l ∈ ls, '\n' ∉ l)
    (h2 : ∀ l ∈ ls, trimS l = l) (h3 : ∀ l ∈ ls, l ≠ []) :
    checkTimerfileSyntaxPlain (joinLines ls) = ls.all validPlainLine := by
  induction ls with
  | nil => rfl
  | cons l ls ih =>
    have hmem := List.mem_cons_self l ls
    have e1 : splitNl (joinLines (l :: ls)) = l :: splitNl (joinLines ls) := by
      show splitOnChar '\n' (joinLines (l :: ls)) = l :: splitOnChar '\n' (joinLines ls)
      rw [joinLines_cons, splitOnChar_append_sep _ (h1 l hmem)]
    have ih2 := ih (fun x hx => h1 x (List.mem_cons_of_mem l hx))
      (fun x hx => h2 x (List.mem_cons_of_mem l hx))
      (fun x hx => h3 x (List.mem_cons_of_mem l hx))
    unfold checkTimerfileSyntaxPlain at ih2 ⊢
    rw [e1, List.map_cons, h2 l hmem, List.filter_cons,
      if_pos (decide_eq_true (h3 l hmem)), List.all_cons, ih2, List.all_cons]

/-- The plain-text whole-file syntax check on a single line with no trailing
newline (the file state the latest `removeTimer` leaves behind). -/
theorem checkFilePlain_single {l : Str} (h1 : '\n' ∉ l) (h2 : trimS l = l)
    (h3 : l ≠ []) : checkTimerfileSyntaxPlain l = validPlainLine l := by
  unfold checkTimerfileSyntaxPlain
  rw [show splitNl l = [l] from splitOnChar_no_sep h1]
  simp [h2, h3]

theorem map_stripCr_eq : ∀ {ls : List Str}, (∀ l ∈ ls, stripCr l = l) →
    ls.map stripCr = ls := by
  intro ls
  induction ls with
  | nil => intro _; rfl
  | cons l ls ih =>
    intro h
    rw [List.map_cons, h l (List.mem_cons_self l ls),
      ih (fun x hx => h x (List.mem_cons_of_mem l hx))]

theorem splitCRLF_joinLines {ls : List Str} (h1 : ∀ l ∈ ls, '\n' ∉ l)
    (h2 : ∀ l ∈ ls, stripCr l = l) : splitCRLF (joinLines ls) = ls ++ [[]] := by
  unfold splitCRLF
  rw [splitNl_joinLines h1, map_stripCr_eq]
  intro x hx
  rcases List.mem_append.1 hx with h | h
  · exact h2 x h
  · rw [List.mem_singleton] at h
    subst h
    rfl


/-! ### The plain-text operations on well-shaped files -/

theorem plainLine_ne_nil (id : Str) (st sp : Int) : plainLine id st sp ≠ [] := by
  unfold plainLine
  simp

theorem createTimerPlain_ok {file : Str} (len : ℚ) (id : Str) (now : Int)
    (hlen : 0 ≤ len) (hchk : checkTimerfileSyntaxPlain file = true) :
    createTimerPlain file len id now =
      ⟨.ok id, file ++ plainLine id now (now + mathTrunc len) ++ ['\n']⟩ := by
  unfold createTimerPlain
  rw [if_neg (not_lt.2 hlen), if_pos hchk]

theorem createTimerJsonl_ok {file : Str} (len : ℚ) (id : Str) (now : Int)
    (t d : Option Str) (hlen : 0 ≤ len) (hchk : checkTimerfileSyntaxJsonl file = true) :
    createTimerJsonl file len id now t d =
      ⟨.ok id, file ++ encodeJsonl ⟨id, now, now + mathTrunc len, t, d⟩ ++ ['\n']⟩ := by
  unfold createTimerJsonl
  rw [if_neg (not_lt.2 hlen), if_pos hchk]

theorem removeTimerPlain_joinLines {ls : List Str} (id : Str)
    (h1 : ∀ l ∈ ls, '\n' ∉ l) (h2 : ∀ l ∈ ls, trimS l = l) (h3 : ∀ l ∈ ls, l ≠ [])
    (hcr : ∀ l ∈ ls, stripCr l = l) (hval : ∀ l ∈ ls, validPlainLine l = true) :
    removeTimerPlain (joinLines ls) id =
      if ls.any (fun l => plainFirstTok l == id) then
        ⟨.ok (), joinLines (ls.filter (fun l => !(plainFirstTok l == id)))⟩
      else ⟨.error .notFound, joinLines ls⟩ := by
  have hlines : (splitCRLF (joinLines ls)).filter (fun l => decide (trimS l ≠ [])) = ls :=
    crlfNonBlank_joinLines h1 hcr (fun l hl => by rw [h2 l hl]; exact h3 l hl)
  unfold removeTimerPlain
  rw [checkFilePlain_joinLines h1 h2 h3, List.all_eq_true.2 hval, if_pos rfl, hlines]

theorem removeTimerPlainLatest_joinLines {ls : List Str} (id : Str)
    (h1 : ∀ l ∈ ls, '\n' ∉ l) (h2 : ∀ l ∈ ls, trimS l = l) (h3 : ∀ l ∈ ls, l ≠ [])
    (hcr : ∀ l ∈ ls, stripCr l = l) (hval : ∀ l ∈ ls, validPlainLine l = true) :
    removeTimerPlainLatest (joinLines ls) id =
      if ls.any (fun l => plainFirstTok l == id) then
        ⟨.ok (), joinSep (ls.filter (fun l => !(plainFirstTok l == id)))⟩
      else ⟨.error .notFound, joinLines ls⟩ := by
  have hlines : (splitCRLF (joinLines ls)).filter (fun l => decide (trimS l ≠ [])) = ls :=
    crlfNonBlank_joinLines h1 hcr (fun l hl => by rw [h2 l hl]; exact h3 l hl)
  unfold removeTimerPlainLatest
  rw [checkFilePlain_joinLines h1 h2 h3, List.all_eq_true.2 hval, if_pos rfl, hlines]

theorem append_line_joinLines (ls : List Str) (l : Str) :
    (joinLines ls ++ l) ++ ['\n'] = joinLines (ls ++ [l]) := by
  induction ls with
  | nil => rfl
  | cons x ls ih =>
    rw [List.cons_append, joinLines_cons, joinLines_cons, ← ih]
    simp [List.append_assoc]

/-- Concatenating two plain-text records with no newline between them (the
effect of appending after a file left without a trailing newline) produces a
single line of five whitespace-separated fields. -/
theorem plainLine_concat (b c : Str) (n2 s2 n3 s3 : Int) :
    plainLine b n2 s2 ++ plainLine c n3 s3 =
      sepJoin ' ' [b, intToStr n2, intToStr s2 ++ c, intToStr n3, intToStr s3] := by
  simp [plainLine, sepJoin, List.append_assoc]

theorem validPlainLine_five {b c : Str} (hb : ∀ x ∈ b, isWs x = false) (hbne : b ≠ [])
    (hcws : ∀ x ∈ c, isWs x = false) (n2 s2 n3 s3 : Int) :
    validPlainLine (plainLine b n2 s2 ++ plainLine c n3 s3) = false := by
  unfold validPlainLine
  rw [plainLine_concat]
  have hsw := splitWs_sepJoin [b, intToStr n2, intToStr s2 ++ c, intToStr n3, intToStr s3]
    (by simp)
    (by
      intro t ht
      simp only [List.mem_cons] at ht
      rcases ht with rfl | rfl | rfl | rfl | rfl | ht
      · exact hbne
      · exact intToStr_ne_nil n2
      · intro h
        exact intToStr_ne_nil s2 (List.append_eq_nil.1 h).1
      · exact intToStr_ne_nil n3
      · exact intToStr_ne_nil s3
      · cases ht)
    (by
      intro t ht
      simp only [List.mem_cons] at ht
      rcases ht with rfl | rfl | rfl | rfl | rfl | ht
      · exact hb
      · exact intToStr_not_ws n2
      · intro x hx
        rcases List.mem_append.1 hx with h | h
        · exact intToStr_not_ws s2 x h
        · exact hcws x h
      · exact intToStr_not_ws n3
      · exact intToStr_not_ws s3
      · cases ht)
  simp only [hsw]

theorem trimS_append_plainLines {b : Str} (hbws : ∀ x ∈ b, isWs x = false)
    (hbne : b ≠ []) (n2 s2 : Int) (c : Str) (n3 s3 : Int) :
    trimS (plainLine b n2 s2 ++ plainLine c n3 s3) =
      plainLine b n2 s2 ++ plainLine c n3 s3 := by
  obtain ⟨y, ys, hy⟩ := List.exists_cons_of_ne_nil hbne
  refine trimS_eq_of (fun x hx => ?_) (fun x hx => ?_)
  · rw [show plainLine b n2 s2 ++ plainLine c n3 s3 =
        b ++ ((' ' :: intToStr n2 ++ ' ' :: intToStr s2) ++ plainLine c n3 s3) from by
        simp [plainLine, List.append_assoc], hy, List.cons_append, List.head?_cons] at hx
    cases hx
    refine hbws y ?_
    rw [hy]
    exact List.mem_cons_self y ys
  · rw [List.getLast?_append_of_ne_nil _ (plainLine_ne_nil c n3 s3),
      show plainLine c n3 s3 = (c ++ ' ' :: intToStr n3) ++ ' ' :: intToStr s3 from rfl,
      List.getLast?_append_of_ne_nil _ (by simp),
      show (' ' :: intToStr s3 : Str) = [' '] ++ intToStr s3 from rfl,
      List.getLast?_append_of_ne_nil _ (intToStr_ne_nil s3)] at hx
    exact intToStr_not_ws s3 x (mem_of_getLast hx)

theorem no_nl_append_plainLines {b c : Str} (hbws : ∀ x ∈ b, isWs x = false)
    (hcws : ∀ x ∈ c, isWs x = false) (n2 s2 n3 s3 : Int) :
    '\n' ∉ plainLine b n2 s2 ++ plainLine c n3 s3 := by
  intro h
  rcases List.mem_append.1 h with h | h
  · exact plainLine_no_nl hbws n2 s2 h
  · exact plainLine_no_nl hcws n3 s3 h


/-! ### Stepping the poll pass -/

theorem jidOf_jvalOfTimer (r : TimerRec) : jidOf (jvalOfTimer r) = r.id := by
  unfold jidOf
  simp only [getProp_timer_id]

theorem jidEq_jvalOfTimer (r : TimerRec) (id : Str) :
    jidEq (jvalOfTimer r) id = (r.id == id) := by
  unfold jidEq
  simp only [getProp_timer_id]

theorem jsNumStop_timer (r : TimerRec) :
    jsNumberOfProp (getProp (jvalOfTimer r) (str "stop")) = some r.stop := by
  rw [getProp_timer_stop]
  rfl

theorem passJsonlGo_cons_blank {l : Str} (hl : trimS l = []) (now : Int)
    (cb : JVal → Bool) (rest : List Str) (cur : Str) (del : List JVal) (cf : Nat) :
    passJsonlGo now cb (l :: rest) cur del cf = passJsonlGo now cb rest cur del cf := by
  rw [passJsonlGo, if_pos hl]

theorem passJsonlGo_cons_bad {l : Str} (hl : trimS l ≠ []) (hp : parseJson l = none)
    (now : Int) (cb : JVal → Bool) (rest : List Str) (cur : Str) (del : List JVal)
    (cf : Nat) : passJsonlGo now cb (l :: rest) cur del cf = ⟨cur, del, cf, true⟩ := by
  rw [passJsonlGo, if_neg hl]
  simp only [hp]

theorem passJsonlGo_cons_live {l : Str} {v : JVal} {now : Int}
    (hl : trimS l ≠ []) (hp : parseJson l = some v)
    (hle : jsLe (jsNumberOfProp (getProp v (str "stop"))) now = false)
    (cb : JVal → Bool) (rest : List Str) (cur : Str) (del : List JVal) (cf : Nat) :
    passJsonlGo now cb (l :: rest) cur del cf = passJsonlGo now cb rest cur del cf := by
  rw [passJsonlGo, if_neg hl]
  simp only [hp, hle]
  rw [if_neg (by simp)]

theorem passJsonlGo_cons_due_err {l cur f : Str} {v : JVal} {now : Int} {e : TErr}
    (hl : trimS l ≠ []) (hp : parseJson l = some v)
    (hle : jsLe (jsNumberOfProp (getProp v (str "stop"))) now = true)
    (hr : removeTimerJsonl cur (jidOf v) = ⟨.error e, f⟩)
    (cb : JVal → Bool) (rest : List Str) (del : List JVal) (cf : Nat) :
    passJsonlGo now cb (l :: rest) cur del cf = ⟨f, del, cf, true⟩ := by
  rw [passJsonlGo, if_neg hl]
  simp only [hp, hle, hr, if_pos]

theorem passJsonlGo_cons_due_ok {l cur f : Str} {v : JVal} {now : Int}
    (hl : trimS l ≠ []) (hp : parseJson l = some v)
    (hle : jsLe (jsNumberOfProp (getProp v (str "stop"))) now = true)
    (hr : removeTimerJsonl cur (jidOf v) = ⟨.ok (), f⟩)
    (cb : JVal → Bool) (rest : List Str) (del : List JVal) (cf : Nat) :
    passJsonlGo now cb (l :: rest) cur del cf =
      passJsonlGo now cb rest f (del ++ [v]) (cf + if cb v then 1 else 0) := by
  rw [passJsonlGo, if_neg hl]
  simp only [hp, hle, hr, if_pos]

/-- The callback predicate can change only the failure counter: the file, the
delivered records and the aborted flag of a pass do not depend on it. -/
theorem passJsonlGo_cb (now : Int) (p q : JVal → Bool) : ∀ (ls : List Str) (cur : Str)
    (del : List JVal) (cf1 cf2 : Nat),
    (passJsonlGo now p ls cur del cf1).file = (passJsonlGo now q ls cur del cf2).file ∧
    (passJsonlGo now p ls cur del cf1).delivered =
      (passJsonlGo now q ls cur del cf2).delivered ∧
    (passJsonlGo now p ls cur del cf1).aborted =
      (passJsonlGo now q ls cur del cf2).aborted := by
  intro ls
  induction ls with
  | nil =>
    intro cur del cf1 cf2
    exact ⟨rfl, rfl, rfl⟩
  | cons l rest ih =>
    intro cur del cf1 cf2
    by_cases hl : trimS l = []
    · rw [passJsonlGo_cons_blank hl, passJsonlGo_cons_blank hl]
      exact ih cur del cf1 cf2
    · rcases hp : parseJson l with _ | v
      · rw [passJsonlGo_cons_bad hl hp, passJsonlGo_cons_bad hl hp]
        exact ⟨rfl, rfl, rfl⟩
      · rcases hle : jsLe (jsNumberOfProp (getProp v (str "stop"))) now with _ | _
        · rw [passJsonlGo_cons_live hl hp hle, passJsonlGo_cons_live hl hp hle]
          exact ih cur del cf1 cf2
        · rcases hr : removeTimerJsonl cur (jidOf v) with ⟨res, f⟩
          rcases res with e | u
          · rw [passJsonlGo_cons_due_err hl hp hle hr, passJsonlGo_cons_due_err hl hp hle hr]
            exact ⟨rfl, rfl, rfl⟩
          · rw [passJsonlGo_cons_due_ok hl hp hle hr, passJsonlGo_cons_due_ok hl hp hle hr]
            exact ih f (del ++ [v]) _ _

/-! ### The poller lock invariant -/

theorem pollStep_inv {s : PollerState} (h : s.running = if s.lock then 1 else 0)
    (e : PollEvent) : (pollStep s e).running = if (pollStep s e).lock then 1 else 0 := by
  rcases e with _ | _ | _
  · rw [pollStep]
    rcases hl : s.lock
    · rw [hl] at h
      simp at h
      simp [h]
    · rw [hl] at h
      simp at h
      simp [h]
  · rw [pollStep]
    by_cases h0 : s.running = 0
    · rw [if_pos h0]
      exact h
    · rw [if_neg h0]
      rcases hl : s.lock
      · rw [hl] at h
        simp at h
        exact absurd h h0
      · rw [hl] at h
        simp at h ⊢
        omega
  · rw [pollStep]
    by_cases h0 : s.running = 0
    · rw [if_pos h0]
      exact h
    · rw [if_neg h0]
      rcases hl : s.lock
      · rw [hl] at h
        simp at h
        exact absurd h h0
      · rw [hl] at h
        simp at h ⊢
        omega

theorem pollRun_inv (evs : List PollEvent) :
    (pollRun evs).running = if (pollRun evs).lock then 1 else 0 := by
  unfold pollRun
  have hgen : ∀ s : PollerState, s.running = (if s.lock then 1 else 0) →
      (evs.foldl pollStep s).running = if (evs.foldl pollStep s).lock then 1 else 0 := by
    induction evs with
    | nil => intro s h; exact h
    | cons e evs ih =>
      intro s h
      rw [List.foldl_cons]
      exact ih _ (pollStep_inv h e)
  exact hgen pollInit rfl


/-- A poll pass (latest streaming revision) over a file holding two records
with the same id, both expired: processing the first line removes every line
with that id and delivers the first record; the second line then aborts the
pass with a NotFound error from `removeTimer`. -/
theorem passJsonl_dup (r1 r2 : TimerRec) (cb : JVal → Bool) (now : Int)
    (hid : r2.id = r1.id) (h36 : r1.id.length = 36)
    (hst1 : r1.start ≠ 0) (hsp1 : r1.stop ≠ 0) (hst2 : r2.start ≠ 0) (hsp2 : r2.stop ≠ 0)
    (hex1 : r1.stop ≤ now) (hex2 : r2.stop ≤ now) :
    checkTimersPassJsonl (joinLines [encodeJsonl r1, encodeJsonl r2]) now cb =
      ⟨[], [jvalOfTimer r1], if cb (jvalOfTimer r1) then 1 else 0, true⟩ := by
  have h36b : r2.id.length = 36 := by rw [hid]; exact h36
  have hwfall : ∀ v ∈ [jvalOfTimer r1, jvalOfTimer r2], wfJ v = true := by
    intro v hv
    simp only [List.mem_cons] at hv
    rcases hv with rfl | rfl | hv
    · exact wfJ_jvalOfTimer r1
    · exact wfJ_jvalOfTimer r2
    · cases hv
  have hokall : ∀ v ∈ [jvalOfTimer r1, jvalOfTimer r2], jsonShapeOk v = true := by
    intro v hv
    simp only [List.mem_cons] at hv
    rcases hv with rfl | rfl | hv
    · rw [jsonShapeOk_jvalOfTimer r1 h36]
      simp [hst1, hsp1]
    · rw [jsonShapeOk_jvalOfTimer r2 h36b]
      simp [hst2, hsp2]
    · cases hv
  have hfilt : [jvalOfTimer r1, jvalOfTimer r2].filter (fun v => !jidEq v r1.id) = [] := by
    simp [List.filter_cons, jidEq_jvalOfTimer, hid]
  have hany : [jvalOfTimer r1, jvalOfTimer r2].any (fun v => jidEq v r1.id) = true := by
    simp [jidEq_jvalOfTimer]
  have hrem1 : removeTimerJsonl
      (joinLines [strJVal (jvalOfTimer r1), strJVal (jvalOfTimer r2)])
      (jidOf (jvalOfTimer r1)) = ⟨.ok (), []⟩ := by
    rw [show ([strJVal (jvalOfTimer r1), strJVal (jvalOfTimer r2)] : List Str) =
      [jvalOfTimer r1, jvalOfTimer r2].map strJVal from rfl,
      removeTimerJsonl_serialized hwfall hokall, jidOf_jvalOfTimer, if_pos hany, hfilt]
    rfl
  have hrem2 : removeTimerJsonl [] (jidOf (jvalOfTimer r2)) =
      ⟨.error .notFound, []⟩ := rfl
  have hsplit : splitCRLF (joinLines [strJVal (jvalOfTimer r1), strJVal (jvalOfTimer r2)]) =
      [strJVal (jvalOfTimer r1), strJVal (jvalOfTimer r2), []] := by
    rw [splitCRLF_joinLines]
    · rfl
    · intro l hl
      simp only [List.mem_cons] at hl
      rcases hl with rfl | rfl | hl
      · exact strJVal_no_nl _
      · exact strJVal_no_nl _
      · cases hl
    · intro l hl
      simp only [List.mem_cons] at hl
      rcases hl with rfl | rfl | hl
      · exact strJVal_stripCr _
      · exact strJVal_stripCr _
      · cases hl
  unfold checkTimersPassJsonl encodeJsonl
  rw [hsplit]
  rw [passJsonlGo_cons_due_ok (strJVal_trim_ne_nil _)
    (parseJson_strJVal (wfJ_jvalOfTimer r1))
    (by rw [jsNumStop_timer]; exact decide_eq_true hex1) hrem1]
  rw [passJsonlGo_cons_due_err (strJVal_trim_ne_nil _)
    (parseJson_strJVal (wfJ_jvalOfTimer r2))
    (by rw [jsNumStop_timer]; exact decide_eq_true hex2) hrem2]
  simp


/-! ## The claims -/

/-- C1: round-trip law — decoding the line produced by encoding a valid
record yields the record back under both the JSONL and the plain-text
encoding, and every line written by `createTimer` is accepted by the same
manager's syntax validation. -/
theorem claim_C1 (r : TimerRec) (a b : Int)
    (hws : ∀ c ∈ r.id, isWs c = false) (h36 : r.id.length = 36)
    (hst : r.start ≠ 0) (hstop : r.stop ≠ 0) :
    decodeJsonl (encodeJsonl r) = some r ∧
    decodePlainLine (plainLine r.id a b) = ⟨r.id, some a, some b⟩ ∧
    validJsonlLine (encodeJsonl r) = true ∧
    validPlainLine (plainLine r.id a b) = true := by
  have hnos : ' ' ∉ r.id := fun h => absurd (hws ' ' h) (by decide)
  refine ⟨decodeJsonl_encodeJsonl r, decodePlainLine_plainLine a b hnos, ?_,
    validPlainLine_plainLine hws h36 a b⟩
  rw [validJsonl_encodeJsonl r h36]
  simp [hst, hstop]

theorem claim_C1_witness :
    decodeJsonl (encodeJsonl ⟨str "aaaaaaaa-aaaa-4aaa-8aaa-aaaaaaaaaaaa", 3, 7, none, none⟩) =
      some ⟨str "aaaaaaaa-aaaa-4aaa-8aaa-aaaaaaaaaaaa", 3, 7, none, none⟩ ∧
    decodePlainLine (plainLine (str "aaaaaaaa-aaaa-4aaa-8aaa-aaaaaaaaaaaa") 3 7) =
      ⟨str "aaaaaaaa-aaaa-4aaa-8aaa-aaaaaaaaaaaa", some 3, some 7⟩ ∧
    validJsonlLine (encodeJsonl ⟨str "aaaaaaaa-aaaa-4aaa-8aaa-aaaaaaaaaaaa", 3, 7, none, none⟩) = true ∧
    validPlainLine (plainLine (str "aaaaaaaa-aaaa-4aaa-8aaa-aaaaaaaaaaaa") 3 7) = true :=
  claim_C1 ⟨str "aaaaaaaa-aaaa-4aaa-8aaa-aaaaaaaaaaaa", 3, 7, none, none⟩ 3 7
    (by decide) (by decide) (by decide) (by decide)

/-- C2: corrupt-file rejection with atomicity — for every file state with a
non-blank line that fails the active encoding's per-line check, that
encoding's `createTimer` and `removeTimer` fail with the corruption error and
return the file unchanged. -/
theorem claim_C2 (file id uid : Str) (len : ℚ) (now : Int) (t d : Option Str)
    (hlen : 0 ≤ len) (l : Str)
    (hmem : l ∈ ((splitNl file).map trimS).filter (fun x => decide (x ≠ []))) :
    (validJsonlLine l = false →
      createTimerJsonl file len uid now t d = ⟨.error .badSyntax, file⟩ ∧
      removeTimerJsonl file id = ⟨.error .badSyntax, file⟩) ∧
    (validPlainLine l = false →
      createTimerPlain file len uid now = ⟨.error .badSyntax, file⟩ ∧
      removeTimerPlain file id = ⟨.error .badSyntax, file⟩ ∧
      removeTimerPlainLatest file id = ⟨.error .badSyntax, file⟩) := by
  constructor
  · intro hbj
    have hcj : checkTimerfileSyntaxJsonl file = false := by
      rcases hall : checkTimerfileSyntaxJsonl file
      · rfl
      · unfold checkTimerfileSyntaxJsonl at hall
        have h2 := List.all_eq_true.1 hall l hmem
        rw [hbj] at h2
        cases h2
    refine ⟨?_, ?_⟩
    · unfold createTimerJsonl
      rw [if_neg (not_lt.2 hlen), if_neg (by simp [hcj])]
    · unfold removeTimerJsonl
      rw [if_neg (by simp [hcj])]
  · intro hbp
    have hcp : checkTimerfileSyntaxPlain file = false := by
      rcases hall : checkTimerfileSyntaxPlain file
      · rfl
      · unfold checkTimerfileSyntaxPlain at hall
        have h2 := List.all_eq_true.1 hall l hmem
        rw [hbp] at h2
        cases h2
    refine ⟨?_, ?_, ?_⟩
    · unfold createTimerPlain
      rw [if_neg (not_lt.2 hlen), if_neg (by simp [hcp])]
    · unfold removeTimerPlain
      rw [if_neg (by simp [hcp])]
    · unfold removeTimerPlainLatest
      rw [if_neg (by simp [hcp])]

theorem claim_C2_witness :
    createTimerJsonl (str "aaaaaaaa-aaaa-4aaa-8aaa-aaaaaaaaaaaa 1 2") 0 (str "u") 5 none none =
      ⟨.error .badSyntax, str "aaaaaaaa-aaaa-4aaa-8aaa-aaaaaaaaaaaa 1 2"⟩ ∧
    removeTimerJsonl (str "aaaaaaaa-aaaa-4aaa-8aaa-aaaaaaaaaaaa 1 2") (str "u") =
      ⟨.error .badSyntax, str "aaaaaaaa-aaaa-4aaa-8aaa-aaaaaaaaaaaa 1 2"⟩ ∧
    validPlainLine (str "aaaaaaaa-aaaa-4aaa-8aaa-aaaaaaaaaaaa 1 2") = true ∧
    createTimerPlain (str "x y") 0 (str "u") 5 = ⟨.error .badSyntax, str "x y"⟩ ∧
    removeTimerPlain (str "x y") (str "u") = ⟨.error .badSyntax, str "x y"⟩ ∧
    removeTimerPlainLatest (str "x y") (str "u") = ⟨.error .badSyntax, str "x y"⟩ :=
  ⟨((claim_C2 (str "aaaaaaaa-aaaa-4aaa-8aaa-aaaaaaaaaaaa 1 2") (str "u") (str "u") 0 5 none none
      (by decide) (str "aaaaaaaa-aaaa-4aaa-8aaa-aaaaaaaaaaaa 1 2") (by decide)).1 (by decide)).1,
    ((claim_C2 (str "aaaaaaaa-aaaa-4aaa-8aaa-aaaaaaaaaaaa 1 2") (str "u") (str "u") 0 5 none none
      (by decide) (str "aaaaaaaa-aaaa-4aaa-8aaa-aaaaaaaaaaaa 1 2") (by decide)).1 (by decide)).2,
    by decide,
    ((claim_C2 (str "x y") (str "u") (str "u") 0 5 none none
      (by decide) (str "x y") (by decide)).2 (by decide)).1,
    ((claim_C2 (str "x y") (str "u") (str "u") 0 5 none none
      (by decide) (str "x y") (by decide)).2 (by decide)).2.1,
    ((claim_C2 (str "x y") (str "u") (str "u") 0 5 none none
      (by decide) (str "x y") (by decide)).2 (by decide)).2.2⟩

/-- C3: duration handling — negative lengths are rejected with the
invalid-length error before anything is read or written; non-negative lengths
succeed on a valid file, appending a record with `start = now` and
`stop = now + trunc(length)`, so `stop >= start`, with `stop = start` for
length 0. -/
theorem claim_C3 (file uid : Str) (len : ℚ) (now : Int) (t d : Option Str) :
    (len < 0 →
      createTimerJsonl file len uid now t d = ⟨.error .invalidLength, file⟩ ∧
      createTimerPlain file len uid now = ⟨.error .invalidLength, file⟩) ∧
    (0 ≤ len →
      (checkTimerfileSyntaxJsonl file = true →
        createTimerJsonl file len uid now t d =
          ⟨.ok uid, file ++ encodeJsonl ⟨uid, now, now + mathTrunc len, t, d⟩ ++ ['\n']⟩) ∧
      (checkTimerfileSyntaxPlain file = true →
        createTimerPlain file len uid now =
          ⟨.ok uid, file ++ plainLine uid now (now + mathTrunc len) ++ ['\n']⟩) ∧
      now ≤ now + mathTrunc len) ∧
    now + mathTrunc 0 = now := by
  refine ⟨fun hneg => ⟨?_, ?_⟩,
    fun hnn => ⟨fun hchk => createTimerJsonl_ok len uid now t d hnn hchk,
      fun hchk => createTimerPlain_ok len uid now hnn hchk, ?_⟩, ?_⟩
  · unfold createTimerJsonl
    rw [if_pos hneg]
  · unfold createTimerPlain
    rw [if_pos hneg]
  · unfold mathTrunc
    rw [if_neg (not_lt.2 hnn)]
    have hf := Int.floor_nonneg.2 hnn
    omega
  · have h0 : mathTrunc 0 = 0 := by simp [mathTrunc]
    rw [h0]
    omega

theorem claim_C3_witness :
    createTimerJsonl [] (-1) (str "u") 5 none none = ⟨.error .invalidLength, []⟩ ∧
    createTimerPlain [] 0 (str "u") 5 =
      ⟨.ok (str "u"), [] ++ plainLine (str "u") 5 (5 + mathTrunc 0) ++ ['\n']⟩ ∧
    (5 : Int) + mathTrunc 0 = 5 :=
  ⟨((claim_C3 [] (str "u") (-1) 5 none none).1 (by decide)).1,
    ((claim_C3 [] (str "u") 0 5 none none).2.1 (by decide)).2.1 rfl,
    (claim_C3 [] (str "u") 0 5 none none).2.2⟩


/-- C4: the well-formedness invariant fails on the code — in the latest
plain-text revision, `removeTimer` writes the kept lines joined with `"\n"`
as a separator (no trailing newline), so the next `createTimer` append merges
its record into the previous line, producing a non-blank line that does not
parse as one record (five fields instead of three). -/
theorem claim_C4 (a b c : Str) (n1 n2 n3 : Int)
    (ha : ∀ x ∈ a, isWs x = false) (hb : ∀ x ∈ b, isWs x = false)
    (hc : ∀ x ∈ c, isWs x = false)
    (h36a : a.length = 36) (h36b : b.length = 36) (h36c : c.length = 36)
    (hba : b ≠ a) :
    ∃ f1 f2 f3 f4 : Str,
      createTimerPlain [] 0 a n1 = ⟨.ok a, f1⟩ ∧
      createTimerPlain f1 0 b n2 = ⟨.ok b, f2⟩ ∧
      removeTimerPlainLatest f2 a = ⟨.ok (), f3⟩ ∧
      createTimerPlain f3 0 c n3 = ⟨.ok c, f4⟩ ∧
      checkTimerfileSyntaxPlain f4 = false := by
  have hprops : ∀ (idt : Str), (∀ x ∈ idt, isWs x = false) → idt.length = 36 →
      ∀ st sp : Int,
      '\n' ∉ plainLine idt st sp ∧ trimS (plainLine idt st sp) = plainLine idt st sp ∧
      plainLine idt st sp ≠ [] ∧ stripCr (plainLine idt st sp) = plainLine idt st sp ∧
      validPlainLine (plainLine idt st sp) = true := by
    intro idt hws hlen st sp
    have hne : idt ≠ [] := by
      intro h
      rw [h] at hlen
      exact absurd hlen (by decide)
    exact ⟨plainLine_no_nl hws st sp, trimS_plainLine hws hne st sp,
      plainLine_ne_nil idt st sp, stripCr_plainLine idt st sp,
      validPlainLine_plainLine hws hlen st sp⟩
  have hpa := hprops a ha h36a n1 (n1 + mathTrunc 0)
  have hpb := hprops b hb h36b n2 (n2 + mathTrunc 0)
  have hbne : b ≠ [] := by
    intro h
    rw [h] at h36b
    exact absurd h36b (by decide)
  have hmem1 : ∀ {P : Str → Prop},
      P (plainLine a n1 (n1 + mathTrunc 0)) →
      ∀ l ∈ [plainLine a n1 (n1 + mathTrunc 0)], P l := by
    intro P hP l hl
    rw [List.mem_singleton] at hl
    subst hl
    exact hP
  have hmem2 : ∀ {P : Str → Prop},
      P (plainLine a n1 (n1 + mathTrunc 0)) → P (plainLine b n2 (n2 + mathTrunc 0)) →
      ∀ l ∈ [plainLine a n1 (n1 + mathTrunc 0), plainLine b n2 (n2 + mathTrunc 0)], P l := by
    intro P hP1 hP2 l hl
    simp only [List.mem_cons] at hl
    rcases hl with rfl | rfl | hl
    · exact hP1
    · exact hP2
    · cases hl
  have hfta : plainFirstTok (plainLine a n1 (n1 + mathTrunc 0)) = a :=
    plainFirstTok_plainLine a _ _ (fun h => absurd (ha ' ' h) (by decide))
  have hftb : plainFirstTok (plainLine b n2 (n2 + mathTrunc 0)) = b :=
    plainFirstTok_plainLine b _ _ (fun h => absurd (hb ' ' h) (by decide))
  have hchk1 : checkTimerfileSyntaxPlain (joinLines [plainLine a n1 (n1 + mathTrunc 0)]) = true := by
    rw [checkFilePlain_joinLines (hmem1 hpa.1) (hmem1 hpa.2.1) (hmem1 hpa.2.2.1)]
    simp [hpa.2.2.2.2]
  have hchk3 : checkTimerfileSyntaxPlain (plainLine b n2 (n2 + mathTrunc 0)) = true := by
    rw [checkFilePlain_single hpb.1 hpb.2.1 hpb.2.2.1]
    exact hpb.2.2.2.2
  refine ⟨joinLines [plainLine a n1 (n1 + mathTrunc 0)],
    joinLines [plainLine a n1 (n1 + mathTrunc 0), plainLine b n2 (n2 + mathTrunc 0)],
    plainLine b n2 (n2 + mathTrunc 0),
    (plainLine b n2 (n2 + mathTrunc 0) ++ plainLine c n3 (n3 + mathTrunc 0)) ++ ['\n'],
    ?_, ?_, ?_, ?_, ?_⟩
  · rw [createTimerPlain_ok 0 a n1 (le_refl 0) (by rfl)]
    rfl
  · rw [createTimerPlain_ok 0 b n2 (le_refl 0) hchk1]
    rw [show joinLines [plainLine a n1 (n1 + mathTrunc 0)] ++ plainLine b n2 (n2 + mathTrunc 0) ++ ['\n'] =
      joinLines ([plainLine a n1 (n1 + mathTrunc 0)] ++ [plainLine b n2 (n2 + mathTrunc 0)]) from
      append_line_joinLines [plainLine a n1 (n1 + mathTrunc 0)] (plainLine b n2 (n2 + mathTrunc 0))]
    rfl
  · rw [removeTimerPlainLatest_joinLines a
      (hmem2 hpa.1 hpb.1) (hmem2 hpa.2.1 hpb.2.1) (hmem2 hpa.2.2.1 hpb.2.2.1)
      (hmem2 hpa.2.2.2.1 hpb.2.2.2.1) (hmem2 hpa.2.2.2.2 hpb.2.2.2.2),
      if_pos (by simp [hfta])]
    rw [show List.filter (fun l => !(plainFirstTok l == a))
        [plainLine a n1 (n1 + mathTrunc 0), plainLine b n2 (n2 + mathTrunc 0)] =
        [plainLine b n2 (n2 + mathTrunc 0)] from by
      simp [List.filter_cons, hfta, hftb, hba]]
    rfl
  · rw [createTimerPlain_ok 0 c n3 (le_refl 0) hchk3]
  · rw [show (plainLine b n2 (n2 + mathTrunc 0) ++ plainLine c n3 (n3 + mathTrunc 0)) ++ ['\n'] =
      joinLines [plainLine b n2 (n2 + mathTrunc 0) ++ plainLine c n3 (n3 + mathTrunc 0)] from rfl]
    rw [checkFilePlain_joinLines
      (by
        intro l hl
        rw [List.mem_singleton] at hl
        subst hl
        exact no_nl_append_plainLines hb hc _ _ _ _)
      (by
        intro l hl
        rw [List.mem_singleton] at hl
        subst hl
        exact trimS_append_plainLines hb hbne _ _ c _ _)
      (by
        intro l hl
        rw [List.mem_singleton] at hl
        subst hl
        intro hnil
        exact plainLine_ne_nil b n2 (n2 + mathTrunc 0) (List.append_eq_nil.1 hnil).1)]
    simp [validPlainLine_five hb hbne hc]

theorem claim_C4_witness :
    ∃ f1 f2 f3 f4 : Str,
      createTimerPlain [] 0 (str "aaaaaaaa-aaaa-4aaa-8aaa-aaaaaaaaaaaa") 1 =
        ⟨.ok (str "aaaaaaaa-aaaa-4aaa-8aaa-aaaaaaaaaaaa"), f1⟩ ∧
      createTimerPlain f1 0 (str "bbbbbbbb-bbbb-4bbb-8bbb-bbbbbbbbbbbb") 2 =
        ⟨.ok (str "bbbbbbbb-bbbb-4bbb-8bbb-bbbbbbbbbbbb"), f2⟩ ∧
      removeTimerPlainLatest f2 (str "aaaaaaaa-aaaa-4aaa-8aaa-aaaaaaaaaaaa") = ⟨.ok (), f3⟩ ∧
      createTimerPlain f3 0 (str "cccccccc-cccc-4ccc-8ccc-cccccccccccc") 3 =
        ⟨.ok (str "cccccccc-cccc-4ccc-8ccc-cccccccccccc"), f4⟩ ∧
      checkTimerfileSyntaxPlain f4 = false :=
  claim_C4 (str "aaaaaaaa-aaaa-4aaa-8aaa-aaaaaaaaaaaa")
    (str "bbbbbbbb-bbbb-4bbb-8bbb-bbbbbbbbbbbb")
    (str "cccccccc-cccc-4ccc-8ccc-cccccccccccc") 1 2 3
    (by decide) (by decide) (by decide) (by decide) (by decide) (by decide) (by decide)

/-- C5: poller locking discipline — the number of running passes is always at
most one; a tick arriving with the lock held only increments the dropped
counter (nothing is queued); and both completion events, normal and
exceptional, clear the lock. -/
theorem claim_C5 (evs : List PollEvent) (s : PollerState)
    (hlock : s.lock = true) (hrun : 0 < s.running) :
    (pollRun evs).running ≤ 1 ∧
    pollStep s .tick = ⟨true, s.running, s.started, s.dropped + 1⟩ ∧
    (pollStep s .finishOk).lock = false ∧
    (pollStep s .finishErr).lock = false := by
  refine ⟨?_, ?_, ?_, ?_⟩
  · have h := pollRun_inv evs
    split_ifs at h <;> omega
  · rw [pollStep, if_pos hlock, hlock]
  · rw [pollStep, if_neg (by omega)]
  · rw [pollStep, if_neg (by omega)]

theorem claim_C5_witness :
    (pollRun [.tick, .tick, .finishErr, .tick]).running ≤ 1 ∧
    pollStep ⟨true, 1, 1, 0⟩ .tick = ⟨true, 1, 1, 0 + 1⟩ ∧
    (pollStep ⟨true, 1, 1, 0⟩ .finishOk).lock = false ∧
    (pollStep ⟨true, 1, 1, 0⟩ .finishErr).lock = false :=
  claim_C5 [.tick, .tick, .finishErr, .tick] ⟨true, 1, 1, 0⟩ rfl (by decide)


/-- C6 (amended): the latest streaming revision of `checkTimers` performs no
dedup-by-id — on a file with two same-id expired records, processing the
first line removes every line with that id and delivers the first (earlier)
record, and the second line then aborts the pass with a NotFound error from
`removeTimer`. -/
theorem claim_C6 (r1 r2 : TimerRec) (cb : JVal → Bool) (now : Int)
    (hid : r2.id = r1.id) (h36 : r1.id.length = 36)
    (hst1 : r1.start ≠ 0) (hsp1 : r1.stop ≠ 0) (hst2 : r2.start ≠ 0) (hsp2 : r2.stop ≠ 0)
    (hex1 : r1.stop ≤ now) (hex2 : r2.stop ≤ now) :
    checkTimersPassJsonl (joinLines [encodeJsonl r1, encodeJsonl r2]) now cb =
      ⟨[], [jvalOfTimer r1], if cb (jvalOfTimer r1) then 1 else 0, true⟩ :=
  passJsonl_dup r1 r2 cb now hid h36 hst1 hsp1 hst2 hsp2 hex1 hex2

theorem claim_C6_witness :
    checkTimersPassJsonl
      (joinLines [encodeJsonl ⟨str "aaaaaaaa-aaaa-4aaa-8aaa-aaaaaaaaaaaa", 1, 5, none, none⟩,
        encodeJsonl ⟨str "aaaaaaaa-aaaa-4aaa-8aaa-aaaaaaaaaaaa", 2, 6, none, none⟩]) 10
      (fun _ => false) =
      ⟨[], [jvalOfTimer ⟨str "aaaaaaaa-aaaa-4aaa-8aaa-aaaaaaaaaaaa", 1, 5, none, none⟩], 0, true⟩ :=
  claim_C6 ⟨str "aaaaaaaa-aaaa-4aaa-8aaa-aaaaaaaaaaaa", 1, 5, none, none⟩
    ⟨str "aaaaaaaa-aaaa-4aaa-8aaa-aaaaaaaaaaaa", 2, 6, none, none⟩ (fun _ => false) 10
    rfl (by decide) (by decide) (by decide) (by decide) (by decide) (by decide) (by decide)

/-- C6 as frozen is false on the latest revision: with two same-id expired
records on file, the pass delivers the earlier line's record, not the later
one, and aborts instead of processing the id exactly once. -/
theorem claim_C6_counterexample :
    (checkTimersPassJsonl
      (joinLines [encodeJsonl ⟨str "aaaaaaaa-aaaa-4aaa-8aaa-aaaaaaaaaaaa", 1, 5, none, none⟩,
        encodeJsonl ⟨str "aaaaaaaa-aaaa-4aaa-8aaa-aaaaaaaaaaaa", 2, 6, none, none⟩]) 10
      (fun _ => false)).delivered ≠
      [jvalOfTimer ⟨str "aaaaaaaa-aaaa-4aaa-8aaa-aaaaaaaaaaaa", 2, 6, none, none⟩] ∧
    (checkTimersPassJsonl
      (joinLines [encodeJsonl ⟨str "aaaaaaaa-aaaa-4aaa-8aaa-aaaaaaaaaaaa", 1, 5, none, none⟩,
        encodeJsonl ⟨str "aaaaaaaa-aaaa-4aaa-8aaa-aaaaaaaaaaaa", 2, 6, none, none⟩]) 10
      (fun _ => false)).aborted = true := by
  have h := passJsonl_dup ⟨str "aaaaaaaa-aaaa-4aaa-8aaa-aaaaaaaaaaaa", 1, 5, none, none⟩
    ⟨str "aaaaaaaa-aaaa-4aaa-8aaa-aaaaaaaaaaaa", 2, 6, none, none⟩ (fun _ => false) 10
    rfl (by decide) (by decide) (by decide) (by decide) (by decide) (by decide) (by decide)
  rw [h]
  refine ⟨?_, rfl⟩
  intro hEq
  simp only [PassOut.delivered] at hEq
  simp [jvalOfTimer, str] at hEq

/-- C7: callback failure isolation — which records make the callback fail
changes only the failure counter of a poll pass: the resulting file, the
delivered records and the aborted flag are identical for any two callback
behaviours. -/
theorem claim_C7 (file : Str) (now : Int) (p q : JVal → Bool) :
    (checkTimersPassJsonl file now p).file = (checkTimersPassJsonl file now q).file ∧
    (checkTimersPassJsonl file now p).delivered =
      (checkTimersPassJsonl file now q).delivered ∧
    (checkTimersPassJsonl file now p).aborted = (checkTimersPassJsonl file now q).aborted :=
  passJsonlGo_cb now p q (splitCRLF file) file [] 0 0

/-- C8 (amended): `showTimers` performs no per-record shape validation — a
parseable JSON line is returned verbatim whatever its shape (the only JSONL
failure is a JSON.parse failure), and the plain-text `showTimers` never fails,
returning a `decodePlainLine` placeholder record for every non-blank line. -/
theorem claim_C8 (v : JVal) (l : Str) (hwf : wfJ v = true)
    (hl1 : trimS l ≠ []) (hl2 : '\n' ∉ l) (hl3 : stripCr l = l) :
    showTimersJsonl (joinLines [strJVal v]) = .ok [v] ∧
    showTimersPlain (joinLines [l]) = [decodePlainLine l] ∧
    (parseJson l = none → showTimersJsonl (joinLines [l]) = .error .badSyntax) := by
  have hcrlf : crlfNonBlank (joinLines [l]) = [l] := by
    refine crlfNonBlank_joinLines ?_ ?_ ?_ <;> intro x hx <;>
      rw [List.mem_singleton] at hx <;> subst hx
    · exact hl2
    · exact hl3
    · exact hl1
  refine ⟨?_, ?_, fun hp => ?_⟩
  · unfold showTimersJsonl
    rw [show decodeAllJsonl (joinLines [strJVal v]) = some [v] from
      @decodeAllJsonl_joinLines [v] (by
        intro x hx
        rw [List.mem_singleton] at hx
        subst hx
        exact hwf)]
  · unfold showTimersPlain
    rw [show (splitCRLF (joinLines [l])).filter (fun x => decide (trimS x ≠ [])) = [l] from
      hcrlf]
    rfl
  · unfold showTimersJsonl decodeAllJsonl
    rw [show (splitCRLF (joinLines [l])).filter (fun x => decide (trimS x ≠ [])) = [l] from
      hcrlf]
    have hm : (List.mapM parseJson [l] : Option (List JVal)) = none := by
      rw [List.mapM_cons, hp]
      rfl
    rw [hm]

theorem claim_C8_witness :
    showTimersJsonl (joinLines [strJVal (.jbool true)]) = .ok [.jbool true] ∧
    showTimersPlain (joinLines [str "x"]) = [decodePlainLine (str "x")] ∧
    showTimersJsonl (joinLines [str "x"]) = .error .badSyntax :=
  ⟨(claim_C8 (.jbool true) (str "x") (by decide) (by decide) (by decide) (by decide)).1,
    (claim_C8 (.jbool true) (str "x") (by decide) (by decide) (by decide) (by decide)).2.1,
    (claim_C8 (.jbool true) (str "x") (by decide) (by decide) (by decide) (by decide)).2.2
      rfl⟩

/-- C8 as frozen is false: on a file whose line is valid JSON of the wrong
shape the JSONL `showTimers` succeeds and returns it as-is, and on a
malformed plain-text line the plain `showTimers` succeeds with a placeholder
record, instead of failing with a corruption error. -/
theorem claim_C8_counterexample :
    validJsonlLine (str "true") = false ∧
    showTimersJsonl (joinLines [str "true"]) = .ok [.jbool true] ∧
    validPlainLine (str "x") = false ∧
    showTimersPlain (joinLines [str "x"]) = [⟨str "x", none, none⟩] := by
  refine ⟨by decide, by rfl, by decide, by rfl⟩


/-- C9 (amended): per-line validation acceptance — the plain-text check
requires exactly three whitespace-separated fields with a 36-character first
field and non-blank second and third fields, with no numeric requirement on
the timestamps; the JSONL check on a record line additionally rejects falsy
(zero) `start`/`stop` values and accepts the line exactly when both are
non-zero. -/
theorem claim_C9 (r : TimerRec) (h36 : r.id.length = 36)
    (id b c : Str) (hidw : ∀ x ∈ id, isWs x = false) (hbw : ∀ x ∈ b, isWs x = false)
    (hcw : ∀ x ∈ c, isWs x = false) (hid36 : id.length = 36)
    (hbne : b ≠ []) (hcne : c ≠ []) :
    validJsonlLine (encodeJsonl r) = (decide (r.start ≠ 0) && decide (r.stop ≠ 0)) ∧
    validPlainLine (id ++ ' ' :: (b ++ ' ' :: c)) = true :=
  ⟨validJsonl_encodeJsonl r h36, validPlainLine_parts hidw hbw hcw hid36 hbne hcne⟩

theorem claim_C9_witness :
    validJsonlLine
      (encodeJsonl ⟨str "aaaaaaaa-aaaa-4aaa-8aaa-aaaaaaaaaaaa", 0, 5, none, none⟩) = false ∧
    validPlainLine
      (str "aaaaaaaa-aaaa-4aaa-8aaa-aaaaaaaaaaaa" ++ ' ' :: (str "xx" ++ ' ' :: str "yy")) =
      true := by
  have h := claim_C9 ⟨str "aaaaaaaa-aaaa-4aaa-8aaa-aaaaaaaaaaaa", 0, 5, none, none⟩ (by decide)
    (str "aaaaaaaa-aaaa-4aaa-8aaa-aaaaaaaaaaaa") (str "xx") (str "yy")
    (by decide) (by decide) (by decide) (by decide) (by decide) (by decide)
  exact ⟨h.1.trans (by decide), h.2⟩

/-- C9 as frozen is false: a plain-text line with non-numeric timestamp
fields is accepted by the validation (the claim requires a failure on a
non-numeric timestamp), and a structured record line with a numeric `start`
of 0 and a 36-character id is rejected (the claim lists no such failure
condition). -/
theorem claim_C9_counterexample :
    validPlainLine (str "aaaaaaaa-aaaa-4aaa-8aaa-aaaaaaaaaaaa xx yy") = true ∧
    jsNumberStr (str "xx") = none ∧
    jsNumberStr (str "yy") = none ∧
    validJsonlLine
      (encodeJsonl ⟨str "aaaaaaaa-aaaa-4aaa-8aaa-aaaaaaaaaaaa", 0, 5, none, none⟩) = false :=
  ⟨by decide, by decide, by decide,
    (validJsonl_encodeJsonl ⟨str "aaaaaaaa-aaaa-4aaa-8aaa-aaaaaaaaaaaa", 0, 5, none, none⟩
      (by decide)).trans (by decide)⟩

/-- C10: frame property of `removeTimer` — on a valid file containing the
id, the call succeeds, only the lines whose id matches disappear, and the
remaining lines are kept in their relative order, each still decoding to the
same record, under both encodings. -/
theorem claim_C10 (vs : List JVal) (ls : List Str) (id : Str)
    (hj : ∀ v ∈ vs, wfJ v = true ∧ jsonShapeOk v = true)
    (hp : ∀ l ∈ ls, validPlainLine l = true ∧ trimS l = l ∧ '\n' ∉ l ∧
      stripCr l = l ∧ l ≠ [])
    (hanyj : vs.any (fun v => jidEq v id) = true)
    (hanyp : ls.any (fun l => plainFirstTok l == id) = true) :
    removeTimerJsonl (joinLines (vs.map strJVal)) id =
      ⟨.ok (), joinLines ((vs.filter (fun v => !jidEq v id)).map strJVal)⟩ ∧
    decodeAllJsonl (joinLines ((vs.filter (fun v => !jidEq v id)).map strJVal)) =
      some (vs.filter (fun v => !jidEq v id)) ∧
    removeTimerPlain (joinLines ls) id =
      ⟨.ok (), joinLines (ls.filter (fun l => !(plainFirstTok l == id)))⟩ ∧
    showTimersPlain (joinLines (ls.filter (fun l => !(plainFirstTok l == id)))) =
      (ls.filter (fun l => !(plainFirstTok l == id))).map decodePlainLine := by
  refine ⟨?_, ?_, ?_, ?_⟩
  · rw [removeTimerJsonl_serialized (fun v hv => (hj v hv).1) (fun v hv => (hj v hv).2),
      if_pos hanyj]
  · exact decodeAllJsonl_joinLines (fun v hv => (hj v (List.mem_of_mem_filter hv)).1)
  · rw [removeTimerPlain_joinLines id (fun l hl => (hp l hl).2.2.1)
      (fun l hl => (hp l hl).2.1) (fun l hl => (hp l hl).2.2.2.2)
      (fun l hl => (hp l hl).2.2.2.1) (fun l hl => (hp l hl).1), if_pos hanyp]
  · show (crlfNonBlank (joinLines (ls.filter (fun l => !(plainFirstTok l == id))))).map
      decodePlainLine = _
    rw [crlfNonBlank_joinLines
      (fun l hl => (hp l (List.mem_of_mem_filter hl)).2.2.1)
      (fun l hl => (hp l (List.mem_of_mem_filter hl)).2.2.2.1)
      (fun l hl => by
        rw [(hp l (List.mem_of_mem_filter hl)).2.1]
        exact (hp l (List.mem_of_mem_filter hl)).2.2.2.2)]

theorem claim_C10_witness :
    removeTimerJsonl
      (joinLines ([jvalOfTimer ⟨str "aaaaaaaa-aaaa-4aaa-8aaa-aaaaaaaaaaaa", 1, 5, none, none⟩].map
        strJVal)) (str "aaaaaaaa-aaaa-4aaa-8aaa-aaaaaaaaaaaa") =
      ⟨.ok (), joinLines (([jvalOfTimer ⟨str "aaaaaaaa-aaaa-4aaa-8aaa-aaaaaaaaaaaa", 1, 5, none, none⟩].filter
        (fun v => !jidEq v (str "aaaaaaaa-aaaa-4aaa-8aaa-aaaaaaaaaaaa"))).map strJVal)⟩ ∧
    decodeAllJsonl
      (joinLines (([jvalOfTimer ⟨str "aaaaaaaa-aaaa-4aaa-8aaa-aaaaaaaaaaaa", 1, 5, none, none⟩].filter
        (fun v => !jidEq v (str "aaaaaaaa-aaaa-4aaa-8aaa-aaaaaaaaaaaa"))).map strJVal)) =
      some ([jvalOfTimer ⟨str "aaaaaaaa-aaaa-4aaa-8aaa-aaaaaaaaaaaa", 1, 5, none, none⟩].filter
        (fun v => !jidEq v (str "aaaaaaaa-aaaa-4aaa-8aaa-aaaaaaaaaaaa"))) ∧
    removeTimerPlain (joinLines [plainLine (str "aaaaaaaa-aaaa-4aaa-8aaa-aaaaaaaaaaaa") 1 5])
      (str "aaaaaaaa-aaaa-4aaa-8aaa-aaaaaaaaaaaa") =
      ⟨.ok (), joinLines ([plainLine (str "aaaaaaaa-aaaa-4aaa-8aaa-aaaaaaaaaaaa") 1 5].filter
        (fun l => !(plainFirstTok l == str "aaaaaaaa-aaaa-4aaa-8aaa-aaaaaaaaaaaa")))⟩ ∧
    showTimersPlain (joinLines ([plainLine (str "aaaaaaaa-aaaa-4aaa-8aaa-aaaaaaaaaaaa") 1 5].filter
        (fun l => !(plainFirstTok l == str "aaaaaaaa-aaaa-4aaa-8aaa-aaaaaaaaaaaa")))) =
      ([plainLine (str "aaaaaaaa-aaaa-4aaa-8aaa-aaaaaaaaaaaa") 1 5].filter
        (fun l => !(plainFirstTok l == str "aaaaaaaa-aaaa-4aaa-8aaa-aaaaaaaaaaaa"))).map
        decodePlainLine :=
  claim_C10 [jvalOfTimer ⟨str "aaaaaaaa-aaaa-4aaa-8aaa-aaaaaaaaaaaa", 1, 5, none, none⟩]
    [plainLine (str "aaaaaaaa-aaaa-4aaa-8aaa-aaaaaaaaaaaa") 1 5]
    (str "aaaaaaaa-aaaa-4aaa-8aaa-aaaaaaaaaaaa")
    (by
      intro v hv
      rw [List.mem_singleton] at hv
      subst hv
      exact ⟨wfJ_jvalOfTimer _,
        (jsonShapeOk_jvalOfTimer _ (by decide)).trans (by decide)⟩)
    (by
      intro l hl
      rw [List.mem_singleton] at hl
      subst hl
      exact ⟨validPlainLine_plainLine (by decide) (by decide) 1 5,
        trimS_plainLine (by decide) (by decide) 1 5,
        plainLine_no_nl (by decide) 1 5,
        stripCr_plainLine _ 1 5, plainLine_ne_nil _ 1 5⟩)
    (by decide)
    (by
      rw [List.any_cons, plainFirstTok_plainLine _ 1 5 (by decide)]
      simp)


end EternalTimer
